import Mathlib

/-!
Formal model of the cex-historical-data extraction scripts
(src/dex/index.js and src/dex/fix2.js), together with theorems that
check the claims of the natural-language specification against the code.

The resumable ingestor (the second script inside src/dex/index.js) is
modelled as pure functions: the chunked main loop, the progress-checkpoint
file, the crash-safe append protocol over the output JSON file, the RPC
endpoint selector and its retry wrapper.  Effectful parts (network calls,
clock reads) are supplied as explicit oracles; file contents are lists of
characters; JavaScript BigInt arithmetic is Nat arithmetic; JavaScript
floating-point arithmetic over the decimal strings involved is modelled
exactly over ℚ.
-/

namespace CexData

/-! ### Price conversion: sqrtPriceX96ToPrice (src/dex/index.js lines 26-32 and 223-229)

`const ratio = (sqrt * sqrt * 10n ** decimals0) / (Q96 * Q96 * 10n ** decimals1)`
is BigInt arithmetic, i.e. integer arithmetic with floor division. -/

def sqrtPriceX96ToPrice (sqrtPriceX96 decimals0 decimals1 : Nat) : Nat :=
  sqrtPriceX96 * sqrtPriceX96 * 10 ^ decimals0 / (2 ^ 96 * 2 ^ 96 * 10 ^ decimals1)

/-! ### Execution price: calculateExecutionPrice (src/dex/fix2.js lines 4-24)

`parseFloat` applied to the plain decimal strings produced by
`ethers.formatUnits` is modelled exactly over ℚ; a string that does not
parse as such a plain decimal corresponds to the NaN path of the code. -/

def digitsVal (ds : List Char) : Nat :=
  ds.foldl (fun n c => 10 * n + (c.toNat - 48)) 0

def parseUnsigned (s : List Char) : Option ℚ :=
  let intp := s.takeWhile Char.isDigit
  let rest := s.dropWhile Char.isDigit
  match rest with
  | [] => if intp.isEmpty then none else some (digitsVal intp)
  | '.' :: frac =>
      if frac.all Char.isDigit && !(intp.isEmpty && frac.isEmpty) then
        some ((digitsVal intp : ℚ) + digitsVal frac / 10 ^ frac.length)
      else none
  | _ => none

def parseDecimal (s : List Char) : Option ℚ :=
  match s with
  | '-' :: r => (parseUnsigned r).map (fun q => -q)
  | '+' :: r => parseUnsigned r
  | _ => parseUnsigned s

/-- Result of `calculateExecutionPrice`: the JavaScript function returns
`null`, a finite number, or `NaN` (when an amount string does not parse). -/
inductive PriceResult where
  | nullPrice : PriceResult
  | price (q : ℚ) : PriceResult
  | nanPrice : PriceResult
deriving DecidableEq

def calculateExecutionPrice (amount0 amount1 : List Char) : PriceResult :=
  let a0 := parseDecimal amount0
  let a1 := parseDecimal amount1
  if a0 = some 0 ∨ a1 = some 0 then .nullPrice
  else
    match a0, a1 with
    | some q0, some q1 => .price (|q1| / |q0|)
    | _, _ => .nanPrice

/-! ### The chunked main loop (src/dex/index.js lines 348-450)

The loop is modelled with a structural fuel argument (one unit per
iteration); `runMain` supplies enough fuel for the whole scan, so that
the model computes by reduction.  Oracles: `fetchOk fromBlock` tells
whether the chunk fetch (`executeWithRetry(getLogs)`) succeeds,
`appendOk fromBlock` whether `appendSwapsToFile` succeeds, and
`recs fromBlock` how many records the chunk yields. -/

structure Checkpoint where
  lastProcessedBlock : Int
  totalSwaps : Nat
deriving DecidableEq

inductive MEv where
  | fetchChunk (fromB toB : Int) : MEv
  | appendOkEv (fromB toB : Int) (n : Nat) : MEv
  | appendFailEv (fromB toB : Int) : MEv
  | saveProg (last : Int) (total : Nat) : MEv
  | deleteProgress : MEv
  | sleepMs (ms : Nat) : MEv
deriving DecidableEq

structure RunState where
  progress : Option Checkpoint
  events : List MEv
  totalNewSwaps : Nat
deriving DecidableEq

def mainLoopF (endB chunk : Int) (existing : Nat)
    (fetchOk appendOk : Int → Bool) (recs : Int → Nat) :
    Nat → Int → RunState → RunState
  | 0, _, st => st
  | fuel + 1, fromB, st =>
    if fromB ≤ endB then
      let toB := min (fromB + chunk - 1) endB
      if fetchOk fromB then
        let n := recs fromB
        if appendOk fromB then
          mainLoopF endB chunk existing fetchOk appendOk recs fuel (fromB + chunk)
            { progress := some ⟨toB, existing + st.totalNewSwaps + n⟩,
              events := st.events ++ [.fetchChunk fromB toB, .appendOkEv fromB toB n,
                .saveProg toB (existing + st.totalNewSwaps + n), .sleepMs 100],
              totalNewSwaps := st.totalNewSwaps + n }
        else
          { st with events := st.events ++ [.fetchChunk fromB toB, .appendFailEv fromB toB] }
      else
        mainLoopF endB chunk existing fetchOk appendOk recs fuel (fromB + chunk)
          { progress := some ⟨fromB - 1, existing + st.totalNewSwaps⟩,
            events := st.events ++ [.fetchChunk fromB toB,
              .saveProg (fromB - 1) (existing + st.totalNewSwaps), .sleepMs 5000],
            totalNewSwaps := st.totalNewSwaps }
    else st

/-- One whole run of `main`: load the checkpoint (defaulting to
`startBlock - 1`), resume from `max(lastProcessedBlock + 1, startBlock)`,
run the chunk loop, then unconditionally remove the progress file
(the `fs.unlinkSync(PROGRESS_FILE)` after the loop). -/
def runMain (startB endB chunk : Int) (progress0 : Option Checkpoint) (existing : Nat)
    (fetchOk appendOk : Int → Bool) (recs : Int → Nat) : RunState :=
  let lastProcessed : Int :=
    match progress0 with
    | some p => p.lastProcessedBlock
    | none => startB - 1
  let startFrom := max (lastProcessed + 1) startB
  let final := mainLoopF endB chunk existing fetchOk appendOk recs
    (endB + 1 - startFrom).toNat startFrom ⟨progress0, [], 0⟩
  { final with progress := none, events := final.events ++ [.deleteProgress] }

def evFetch (evs : List MEv) : List (Int × Int) :=
  evs.filterMap (fun e =>
    match e with
    | .fetchChunk f t => some (f, t)
    | _ => none)

def evAppend (evs : List MEv) : List (Int × Int) :=
  evs.filterMap (fun e =>
    match e with
    | .appendOkEv f t _ => some (f, t)
    | _ => none)

def fetchedChunks (st : RunState) : List (Int × Int) :=
  evFetch st.events

def appendedChunks (st : RunState) : List (Int × Int) :=
  evAppend st.events

/-- The list of chunk ranges the loop iterates over, starting at `fromB`:
`[fromB, min (fromB + chunk - 1) endB]`, advancing by `chunk`. -/
def chunkListF (endB chunk : Int) : Nat → Int → List (Int × Int)
  | 0, _ => []
  | fuel + 1, fromB =>
    if fromB ≤ endB then
      (fromB, min (fromB + chunk - 1) endB) :: chunkListF endB chunk fuel (fromB + chunk)
    else []

def chunkList (endB chunk fromB : Int) : List (Int × Int) :=
  chunkListF endB chunk (endB + 1 - fromB).toNat fromB

/-! ### Basic lemmas about the chunk iteration -/

theorem chunkListF_congr (endB chunk : Int) (hc : 0 < chunk) :
    ∀ (fuel fuel' : Nat) (fromB : Int),
      (endB + 1 - fromB).toNat ≤ fuel → (endB + 1 - fromB).toNat ≤ fuel' →
      chunkListF endB chunk fuel fromB = chunkListF endB chunk fuel' fromB := by
  intro fuel
  induction fuel with
  | zero =>
    intro fuel' fromB h h'
    have hgt : ¬ fromB ≤ endB := by omega
    cases fuel' with
    | zero => rfl
    | succ f' => simp [chunkListF, hgt]
  | succ f ih =>
    intro fuel' fromB h h'
    by_cases hle : fromB ≤ endB
    · obtain ⟨f', rfl⟩ : ∃ f', fuel' = f' + 1 := ⟨fuel' - 1, by omega⟩
      simp only [chunkListF, if_pos hle]
      rw [ih f' (fromB + chunk) (by omega) (by omega)]
    · cases fuel' with
      | zero => simp [chunkListF, hle]
      | succ f' => simp [chunkListF, hle]

theorem chunkList_step (endB chunk fromB : Int) (hc : 0 < chunk) (h : fromB ≤ endB) :
    chunkList endB chunk fromB =
      (fromB, min (fromB + chunk - 1) endB) :: chunkList endB chunk (fromB + chunk) := by
  unfold chunkList
  obtain ⟨f, hf⟩ : ∃ f, (endB + 1 - fromB).toNat = f + 1 :=
    ⟨(endB + 1 - fromB).toNat - 1, by omega⟩
  rw [hf]
  simp only [chunkListF, if_pos h]
  rw [chunkListF_congr endB chunk hc f (endB + 1 - (fromB + chunk)).toNat (fromB + chunk)
    (by omega) (by omega)]

theorem chunkList_stop (endB chunk fromB : Int) (h : ¬ fromB ≤ endB) :
    chunkList endB chunk fromB = [] := by
  unfold chunkList
  cases hn : (endB + 1 - fromB).toNat with
  | zero => rfl
  | succ f => simp [chunkListF, h]

theorem chunkListF_mem (endB chunk : Int) (hc : 0 < chunk) :
    ∀ (fuel : Nat) (fromB : Int) (p : Int × Int),
      p ∈ chunkListF endB chunk fuel fromB →
      fromB ≤ p.1 ∧ p.1 ≤ endB ∧ p.2 = min (p.1 + chunk - 1) endB := by
  intro fuel
  induction fuel with
  | zero => intro fromB p hp; simp [chunkListF] at hp
  | succ f ih =>
    intro fromB p hp
    by_cases hle : fromB ≤ endB
    · simp only [chunkListF, if_pos hle, List.mem_cons] at hp
      rcases hp with rfl | hp
      · exact ⟨le_refl _, hle, rfl⟩
      · obtain ⟨h1, h2, h3⟩ := ih (fromB + chunk) p hp
        exact ⟨by omega, h2, h3⟩
    · simp [chunkListF, hle] at hp

theorem chunkListF_ne_nil (endB chunk : Int) (fuel : Nat) (fromB : Int)
    (h : chunkListF endB chunk fuel fromB ≠ []) : fromB ≤ endB := by
  cases fuel with
  | zero => simp [chunkListF] at h
  | succ f =>
    by_cases hle : fromB ≤ endB
    · exact hle
    · simp [chunkListF, hle] at h

theorem chunkListF_head (endB chunk : Int) (fuel : Nat) (fromB : Int) (p : Int × Int)
    (h : (chunkListF endB chunk fuel fromB).head? = some p) : p.1 = fromB := by
  cases fuel with
  | zero => simp [chunkListF] at h
  | succ f =>
    by_cases hle : fromB ≤ endB
    · simp only [chunkListF, if_pos hle, List.head?_cons, Option.some.injEq] at h
      rw [← h]
    · simp [chunkListF, hle] at h

theorem chunkListF_chain (endB chunk : Int) (_hc : 0 < chunk) :
    ∀ (fuel : Nat) (fromB : Int),
      List.Chain' (fun p q : Int × Int => q.1 = p.2 + 1)
        (chunkListF endB chunk fuel fromB) := by
  intro fuel
  induction fuel with
  | zero => intro fromB; simp [chunkListF]
  | succ f ih =>
    intro fromB
    by_cases hle : fromB ≤ endB
    · simp only [chunkListF, if_pos hle]
      refine List.chain'_cons'.mpr ⟨?_, ih (fromB + chunk)⟩
      intro q hq
      have h1 : q.1 = fromB + chunk := chunkListF_head endB chunk f (fromB + chunk) q hq
      have h2 : fromB + chunk ≤ endB := by
        apply chunkListF_ne_nil endB chunk f (fromB + chunk)
        intro hnil
        rw [hnil] at hq
        simp at hq
      omega
    · simp [chunkListF, hle]

theorem chunkListF_pairwise (endB chunk : Int) (hc : 0 < chunk) :
    ∀ (fuel : Nat) (fromB : Int),
      List.Pairwise (fun p q : Int × Int => p.2 < q.1)
        (chunkListF endB chunk fuel fromB) := by
  intro fuel
  induction fuel with
  | zero => intro fromB; simp [chunkListF]
  | succ f ih =>
    intro fromB
    by_cases hle : fromB ≤ endB
    · simp only [chunkListF, if_pos hle]
      refine List.pairwise_cons.mpr ⟨?_, ih (fromB + chunk)⟩
      intro q hq
      have := chunkListF_mem endB chunk hc f (fromB + chunk) q hq
      simp only
      omega
    · simp [chunkListF, hle]

theorem chunkListF_cover (endB chunk : Int) (hc : 0 < chunk) :
    ∀ (fuel : Nat) (fromB : Int), (endB + 1 - fromB).toNat ≤ fuel →
      ∀ b : Int, (fromB ≤ b ∧ b ≤ endB) ↔
        ∃ p ∈ chunkListF endB chunk fuel fromB, p.1 ≤ b ∧ b ≤ p.2 := by
  intro fuel
  induction fuel with
  | zero =>
    intro fromB h b
    have : ¬ fromB ≤ endB := by omega
    simp [chunkListF]
    omega
  | succ f ih =>
    intro fromB h b
    by_cases hle : fromB ≤ endB
    · simp only [chunkListF, if_pos hle, List.mem_cons]
      constructor
      · rintro ⟨hb1, hb2⟩
        by_cases hcut : b ≤ min (fromB + chunk - 1) endB
        · exact ⟨(fromB, min (fromB + chunk - 1) endB), Or.inl rfl, hb1, hcut⟩
        · have hb3 : fromB + chunk ≤ b ∧ b ≤ endB := by omega
          obtain ⟨p, hp, hpb⟩ := (ih (fromB + chunk) (by omega) b).mp hb3
          exact ⟨p, Or.inr hp, hpb⟩
      · rintro ⟨p, hp, hb1, hb2⟩
        rcases hp with rfl | hp
        · simp only at hb1 hb2
          omega
        · have := chunkListF_mem endB chunk hc f (fromB + chunk) p hp
          omega
    · have : ¬ (fromB ≤ b ∧ b ≤ endB) := by omega
      simp [chunkListF, hle, this]

theorem chunkListF_last (endB chunk : Int) (hc : 0 < chunk) :
    ∀ (fuel : Nat) (fromB : Int) (p : Int × Int), (endB + 1 - fromB).toNat ≤ fuel →
      (chunkListF endB chunk fuel fromB).getLast? = some p → p.2 = endB := by
  intro fuel
  induction fuel with
  | zero => intro fromB p h hl; simp [chunkListF] at hl
  | succ f ih =>
    intro fromB p h hl
    by_cases hle : fromB ≤ endB
    · simp only [chunkListF, if_pos hle] at hl
      cases hrest : chunkListF endB chunk f (fromB + chunk) with
      | nil =>
        rw [hrest, List.getLast?_singleton] at hl
        have hstop : ¬ fromB + chunk ≤ endB := by
          intro hcont
          obtain ⟨f', rfl⟩ : ∃ f', f = f' + 1 := ⟨f - 1, by omega⟩
          simp [chunkListF, hcont] at hrest
        have hp : (fromB, min (fromB + chunk - 1) endB) = p := Option.some.inj hl
        have hp2 : p.2 = min (fromB + chunk - 1) endB := by rw [← hp]
        omega
      | cons q l =>
        rw [hrest, List.getLast?_cons_cons, ← hrest] at hl
        exact ih (fromB + chunk) p (by omega) hl
    · simp [chunkListF, hle] at hl

/-! ### Trace of a run in which every fetch and every append succeeds -/

theorem evFetch_append (a b : List MEv) : evFetch (a ++ b) = evFetch a ++ evFetch b := by
  simp [evFetch, List.filterMap_append]

theorem evAppend_append (a b : List MEv) : evAppend (a ++ b) = evAppend a ++ evAppend b := by
  simp [evAppend, List.filterMap_append]

theorem mainLoopF_allOk (endB chunk : Int) (existing : Nat) (recs : Int → Nat) :
    ∀ (fuel : Nat) (fromB : Int) (st : RunState),
      evFetch (mainLoopF endB chunk existing (fun _ => true) (fun _ => true) recs
          fuel fromB st).events
        = evFetch st.events ++ chunkListF endB chunk fuel fromB ∧
      evAppend (mainLoopF endB chunk existing (fun _ => true) (fun _ => true) recs
          fuel fromB st).events
        = evAppend st.events ++ chunkListF endB chunk fuel fromB := by
  intro fuel
  induction fuel with
  | zero => intro fromB st; simp [mainLoopF, chunkListF]
  | succ f ih =>
    intro fromB st
    by_cases hle : fromB ≤ endB
    · simp only [mainLoopF, chunkListF, if_pos hle, if_true]
      obtain ⟨ih1, ih2⟩ := ih (fromB + chunk)
        { progress := some ⟨min (fromB + chunk - 1) endB,
            existing + st.totalNewSwaps + recs fromB⟩,
          events := st.events ++ [.fetchChunk fromB (min (fromB + chunk - 1) endB),
            .appendOkEv fromB (min (fromB + chunk - 1) endB) (recs fromB),
            .saveProg (min (fromB + chunk - 1) endB)
              (existing + st.totalNewSwaps + recs fromB), .sleepMs 100],
          totalNewSwaps := st.totalNewSwaps + recs fromB }
      rw [ih1, ih2]
      simp [evFetch, evAppend, List.filterMap_append]
    · simp [mainLoopF, chunkListF, hle]

/-! ### Claim theorems for the main loop -/

/-- C10: the stored price is always a whole number: `sqrtPriceX96ToPrice`
computes the ratio entirely in integer (BigInt) arithmetic with floor
division, so its result is exactly the floor of the true rational price
`s² · 10^decimals0 / (2^192 · 10^decimals1)` — every fractional part of
the true price is truncated before the `Number(ratio)` conversion. -/
theorem sqrtPriceX96ToPrice_truncates (s d0 d1 : Nat) :
    sqrtPriceX96ToPrice s d0 d1 =
      ⌊(s * s * 10 ^ d0 : ℚ) / (2 ^ 96 * 2 ^ 96 * 10 ^ d1)⌋₊ ∧
    (sqrtPriceX96ToPrice s d0 d1 : ℚ) ≤ (s * s * 10 ^ d0 : ℚ) / (2 ^ 96 * 2 ^ 96 * 10 ^ d1) ∧
    (s * s * 10 ^ d0 : ℚ) / (2 ^ 96 * 2 ^ 96 * 10 ^ d1) < sqrtPriceX96ToPrice s d0 d1 + 1 := by
  have key : ((s * s * 10 ^ d0 : ℕ) : ℚ) / ((2 ^ 96 * 2 ^ 96 * 10 ^ d1 : ℕ) : ℚ)
      = (s * s * 10 ^ d0 : ℚ) / (2 ^ 96 * 2 ^ 96 * 10 ^ d1) := by push_cast; ring
  have hfl : sqrtPriceX96ToPrice s d0 d1 =
      ⌊(s * s * 10 ^ d0 : ℚ) / (2 ^ 96 * 2 ^ 96 * 10 ^ d1)⌋₊ := by
    rw [← key, Nat.floor_div_nat]
    rfl
  refine ⟨hfl, ?_, ?_⟩
  · rw [hfl]
    exact Nat.floor_le (by positivity)
  · rw [hfl]
    exact Nat.lt_floor_add_one _

/-- C6: a swap record whose normalized amount0 or amount1 equals zero
always receives a null derived price (never an exception or a
division-by-zero value), while a record with both amounts nonzero
receives `|amount1| / |amount0|`; concretely amount0 = "0.5" and
amount1 = "30000" give 60000.  (`parseFloat` on the plain decimal
strings produced by `ethers.formatUnits` is modelled exactly in ℚ.) -/
theorem calculateExecutionPrice_spec :
    (∀ (a0 a1 : List Char) (q0 q1 : ℚ),
      parseDecimal a0 = some q0 → parseDecimal a1 = some q1 →
      ((q0 = 0 ∨ q1 = 0) → calculateExecutionPrice a0 a1 = .nullPrice) ∧
      (q0 ≠ 0 → q1 ≠ 0 → calculateExecutionPrice a0 a1 = .price (|q1| / |q0|))) ∧
    calculateExecutionPrice ['0', '.', '5'] ['3', '0', '0', '0', '0'] = .price 60000 := by
  constructor
  · intro a0 a1 q0 q1 h0 h1
    constructor
    · intro hz
      have hcond : parseDecimal a0 = some 0 ∨ parseDecimal a1 = some 0 := by
        rcases hz with h | h
        · exact Or.inl (h ▸ h0)
        · exact Or.inr (h ▸ h1)
      simp only [calculateExecutionPrice]
      rw [if_pos hcond]
    · intro hn0 hn1
      have hcond : ¬ (parseDecimal a0 = some 0 ∨ parseDecimal a1 = some 0) := by
        rw [h0, h1]
        simp [hn0, hn1]
      simp only [calculateExecutionPrice]
      rw [if_neg hcond, h0, h1]
  · have h05 : parseDecimal ['0', '.', '5'] = some (1/2 : ℚ) := by
      have h : parseDecimal ['0', '.', '5']
          = some ((digitsVal ['0'] : ℚ) + digitsVal ['5'] / 10 ^ 1) := rfl
      have d0 : digitsVal ['0'] = 0 := by decide
      have d5 : digitsVal ['5'] = 5 := by decide
      rw [h, d0, d5]
      norm_num
    have h3 : parseDecimal ['3', '0', '0', '0', '0'] = some (30000 : ℚ) := by
      have h : parseDecimal ['3', '0', '0', '0', '0']
          = some ((digitsVal ['3', '0', '0', '0', '0'] : ℕ) : ℚ) := rfl
      have d : digitsVal ['3', '0', '0', '0', '0'] = 30000 := by decide
      rw [h, d]
      norm_num
    have hcond : ¬ (parseDecimal ['0', '.', '5'] = some 0 ∨
        parseDecimal ['3', '0', '0', '0', '0'] = some 0) := by
      rw [h05, h3]
      norm_num
    simp only [calculateExecutionPrice]
    rw [if_neg hcond, h05, h3]
    show PriceResult.price (|(30000 : ℚ)| / |(1/2 : ℚ)|) = PriceResult.price 60000
    rw [abs_of_pos (show (0 : ℚ) < 30000 by norm_num),
      abs_of_pos (show (0 : ℚ) < 1/2 by norm_num)]
    norm_num

/-- C7: with startBlock = 100, endBlock = 249, chunkSize = 50 the loop
produces exactly the chunks [100,149], [150,199], [200,249]; with a
checkpoint of lastProcessedBlock = 149 a restarted run resumes at 150
(startFromBlock = max(checkpoint + 1, startBlock)); and in general the
chunk ranges are contiguous (each next range starts one block after the
previous one ends), non-overlapping, strictly advancing, with every
range nonempty, of the form [f, min (f + chunkSize - 1) endBlock], and
the last range clipped to end exactly at endBlock. -/
theorem main_chunking_spec :
    fetchedChunks (runMain 100 249 50 none 0 (fun _ => true) (fun _ => true) (fun _ => 0))
      = [(100, 149), (150, 199), (200, 249)] ∧
    fetchedChunks (runMain 100 249 50 (some ⟨149, 0⟩) 0 (fun _ => true) (fun _ => true)
      (fun _ => 0)) = [(150, 199), (200, 249)] ∧
    (∀ (endB chunk fromB : Int), 0 < chunk →
      List.Chain' (fun p q : Int × Int => q.1 = p.2 + 1) (chunkList endB chunk fromB) ∧
      List.Pairwise (fun p q : Int × Int => p.2 < q.1) (chunkList endB chunk fromB) ∧
      (∀ p ∈ chunkList endB chunk fromB,
        fromB ≤ p.1 ∧ p.1 ≤ p.2 ∧ p.2 = min (p.1 + chunk - 1) endB) ∧
      (∀ p, (chunkList endB chunk fromB).getLast? = some p → p.2 = endB)) := by
  refine ⟨by decide, by decide, ?_⟩
  intro endB chunk fromB hc
  refine ⟨chunkListF_chain endB chunk hc _ fromB, chunkListF_pairwise endB chunk hc _ fromB,
    ?_, ?_⟩
  · intro p hp
    obtain ⟨h1, h2, h3⟩ := chunkListF_mem endB chunk hc _ fromB p hp
    exact ⟨h1, by omega, h3⟩
  · intro p hp
    exact chunkListF_last endB chunk hc _ fromB p (le_refl _) hp

/-- Witness for `main_chunking_spec` at chunkSize = 50. -/
theorem main_chunking_spec_witness :
    (0 : Int) < 50 ∧
    List.Chain' (fun p q : Int × Int => q.1 = p.2 + 1) (chunkList 249 50 100) :=
  ⟨by decide, (main_chunking_spec.2.2 249 50 100 (by decide)).1⟩

/-- Witness for `calculateExecutionPrice_spec`: a zero amount0 gives null. -/
theorem calculateExecutionPrice_spec_witness :
    calculateExecutionPrice ['0'] ['3'] = .nullPrice := by
  have h0 : parseDecimal ['0'] = some (0 : ℚ) := by
    have h : parseDecimal ['0'] = some ((digitsVal ['0'] : ℕ) : ℚ) := rfl
    rw [h, (by decide : digitsVal ['0'] = 0)]
    norm_num
  have h3 : parseDecimal ['3'] = some (3 : ℚ) := by
    have h : parseDecimal ['3'] = some ((digitsVal ['3'] : ℕ) : ℚ) := rfl
    rw [h, (by decide : digitsVal ['3'] = 3)]
    norm_num
  exact (calculateExecutionPrice_spec.1 ['0'] ['3'] 0 3 h0 h3).1 (Or.inl rfl)

/-- C1 (amended): in a single run with no prior checkpoint in which every
chunk fetch and every append succeeds, the appended block ranges cover
exactly [startBlock, endBlock] — every block in the target range lies in
some appended range, no block outside it does, and the appended ranges
are pairwise disjoint (no overlaps); they also coincide with the fetched
ranges.  (The original claim, quantified over runs with failing chunk
fetches, is refuted by `runMain_gap_and_overlap_cex`.) -/
theorem runMain_allOk_partition (startB endB chunk : Int) (existing : Nat)
    (recs : Int → Nat) (hc : 0 < chunk) :
    (∀ b : Int, (startB ≤ b ∧ b ≤ endB) ↔
      ∃ p ∈ appendedChunks (runMain startB endB chunk none existing
        (fun _ => true) (fun _ => true) recs), p.1 ≤ b ∧ b ≤ p.2) ∧
    List.Pairwise (fun p q : Int × Int => p.2 < q.1)
      (appendedChunks (runMain startB endB chunk none existing
        (fun _ => true) (fun _ => true) recs)) ∧
    appendedChunks (runMain startB endB chunk none existing
        (fun _ => true) (fun _ => true) recs) =
      fetchedChunks (runMain startB endB chunk none existing
        (fun _ => true) (fun _ => true) recs) := by
  have hsf : max (startB - 1 + 1) startB = startB := by omega
  have hA : appendedChunks (runMain startB endB chunk none existing
      (fun _ => true) (fun _ => true) recs) = chunkList endB chunk startB := by
    show evAppend ((mainLoopF endB chunk existing (fun _ => true) (fun _ => true) recs
        (endB + 1 - max (startB - 1 + 1) startB).toNat (max (startB - 1 + 1) startB)
        ⟨none, [], 0⟩).events ++ [.deleteProgress]) = _
    rw [hsf, evAppend_append,
      (mainLoopF_allOk endB chunk existing recs _ startB ⟨none, [], 0⟩).2]
    simp [evAppend, chunkList]
  have hF : fetchedChunks (runMain startB endB chunk none existing
      (fun _ => true) (fun _ => true) recs) = chunkList endB chunk startB := by
    show evFetch ((mainLoopF endB chunk existing (fun _ => true) (fun _ => true) recs
        (endB + 1 - max (startB - 1 + 1) startB).toNat (max (startB - 1 + 1) startB)
        ⟨none, [], 0⟩).events ++ [.deleteProgress]) = _
    rw [hsf, evFetch_append,
      (mainLoopF_allOk endB chunk existing recs _ startB ⟨none, [], 0⟩).1]
    simp [evFetch, chunkList]
  rw [hA, hF]
  exact ⟨chunkListF_cover endB chunk hc _ startB (le_refl _),
    chunkListF_pairwise endB chunk hc _ startB, rfl⟩

/-- Witness for `runMain_allOk_partition` at the 100/249/50 scenario. -/
theorem runMain_allOk_partition_witness :
    List.Pairwise (fun p q : Int × Int => p.2 < q.1)
      (appendedChunks (runMain 100 249 50 none 0 (fun _ => true) (fun _ => true)
        (fun _ => 0))) :=
  (runMain_allOk_partition 100 249 50 0 (fun _ => 0) (by decide)).2.1

/-- C1 as stated is false on the code: with startBlock = 100,
endBlock = 249, chunkSize = 50, a run in which only the fetch of chunk
[100,149] fails appends only [150,199] and [200,249] — block 100 is in
no appended range — and still deletes the progress file at the end
(signalling completion), so the union of processed ranges is not
[100,249]; moreover, because the checkpoint was deleted, a subsequent
rerun starts fresh and appends [150,199] a second time (an overlap). -/
theorem runMain_gap_and_overlap_cex :
    appendedChunks (runMain 100 249 50 none 0 (fun f => decide (f ≠ 100)) (fun _ => true)
      (fun _ => 0)) = [(150, 199), (200, 249)] ∧
    (runMain 100 249 50 none 0 (fun f => decide (f ≠ 100)) (fun _ => true)
      (fun _ => 0)).progress = none ∧
    (¬ ∃ p ∈ appendedChunks (runMain 100 249 50 none 0 (fun f => decide (f ≠ 100))
      (fun _ => true) (fun _ => 0)), p.1 ≤ 100 ∧ 100 ≤ p.2) ∧
    (appendedChunks (runMain 100 249 50 none 0 (fun f => decide (f ≠ 100)) (fun _ => true)
        (fun _ => 0)) ++
      appendedChunks (runMain 100 249 50 none 0 (fun _ => true) (fun _ => true)
        (fun _ => 0))).count (150, 199) = 2 := by
  decide

/-- C2 (code bug): the code deletes the Progress Checkpoint file even when
the run halts on an append failure.  With a prior checkpoint at block 149
and the append of the first processed chunk [150,199] failing, the run
breaks out of the loop with nothing appended, yet the cleanup section
after the loop (`fs.unlinkSync(PROGRESS_FILE)`) still removes the
checkpoint file — contradicting both the spec ("prior checkpoint
preserved") and the code's own comment "Clean up progress file when
complete". -/
theorem progress_deleted_on_append_failure :
    (runMain 100 249 50 (some ⟨149, 7⟩) 7 (fun _ => true) (fun f => decide (f ≠ 150))
      (fun _ => 0)).progress = none ∧
    fetchedChunks (runMain 100 249 50 (some ⟨149, 7⟩) 7 (fun _ => true)
      (fun f => decide (f ≠ 150)) (fun _ => 0)) = [(150, 199)] ∧
    appendedChunks (runMain 100 249 50 (some ⟨149, 7⟩) 7 (fun _ => true)
      (fun f => decide (f ≠ 150)) (fun _ => 0)) = [] ∧
    MEv.appendFailEv 150 199 ∈ (runMain 100 249 50 (some ⟨149, 7⟩) 7 (fun _ => true)
      (fun f => decide (f ≠ 150)) (fun _ => 0)).events ∧
    MEv.deleteProgress ∈ (runMain 100 249 50 (some ⟨149, 7⟩) 7 (fun _ => true)
      (fun f => decide (f ≠ 150)) (fun _ => 0)).events := by
  decide

/-- C3 as stated is false on the code: in the run where only the fetch of
chunk [100,149] fails, that chunk is fetched exactly once — after the
failure the loop moves on to [150,199] instead of retrying [100,149] —
even though the checkpoint is rewound to 99 and the 5000 ms backoff sleep
does happen. -/
theorem fetch_failure_not_retried_cex :
    fetchedChunks (runMain 100 249 50 none 0 (fun f => decide (f ≠ 100)) (fun _ => true)
      (fun _ => 0)) = [(100, 149), (150, 199), (200, 249)] ∧
    (fetchedChunks (runMain 100 249 50 none 0 (fun f => decide (f ≠ 100)) (fun _ => true)
      (fun _ => 0))).count (100, 149) = 1 ∧
    MEv.saveProg 99 0 ∈ (runMain 100 249 50 none 0 (fun f => decide (f ≠ 100))
      (fun _ => true) (fun _ => 0)).events ∧
    MEv.sleepMs 5000 ∈ (runMain 100 249 50 none 0 (fun f => decide (f ≠ 100))
      (fun _ => true) (fun _ => 0)).events := by
  decide

/-- C3 (amended): when the fetch of chunk [fromBlock, toBlock] fails after
all retries, the loop writes the checkpoint at fromBlock - 1 and sleeps
the 5000 ms backoff, but then continues with the next chunk
(fromBlock + chunkSize) within the same run, rather than aborting the run
or retrying the same chunk; the failed chunk would be re-covered only by
a later resumed run through the rewound checkpoint. -/
theorem fetch_failure_rewind_then_advance (endB chunk : Int) (existing : Nat)
    (fetchOk appendOk : Int → Bool) (recs : Int → Nat) (fuel : Nat) (fromB : Int)
    (st : RunState) (hle : fromB ≤ endB) (hf : fetchOk fromB = false) :
    mainLoopF endB chunk existing fetchOk appendOk recs (fuel + 1) fromB st =
      mainLoopF endB chunk existing fetchOk appendOk recs fuel (fromB + chunk)
        { progress := some ⟨fromB - 1, existing + st.totalNewSwaps⟩,
          events := st.events ++ [.fetchChunk fromB (min (fromB + chunk - 1) endB),
            .saveProg (fromB - 1) (existing + st.totalNewSwaps), .sleepMs 5000],
          totalNewSwaps := st.totalNewSwaps } := by
  simp [mainLoopF, hle, hf]

/-- Witness for `fetch_failure_rewind_then_advance`. -/
theorem fetch_failure_rewind_then_advance_witness :
    mainLoopF 249 50 0 (fun _ => false) (fun _ => true) (fun _ => 0) 1 100 ⟨none, [], 0⟩ =
      mainLoopF 249 50 0 (fun _ => false) (fun _ => true) (fun _ => 0) 0 150
        ⟨some ⟨99, 0⟩, [.fetchChunk 100 149, .saveProg 99 0, .sleepMs 5000], 0⟩ := by
  rw [fetch_failure_rewind_then_advance 249 50 0 (fun _ => false) (fun _ => true)
    (fun _ => 0) 0 100 ⟨none, [], 0⟩ (by decide) rfl]
  decide

/-! ### RPC endpoint selector: class RPCManager (src/dex/index.js lines 132-220)

The manager state holds the ranked URL list, the rotation cursor, the
failed set (a list with membership semantics), the cached provider (the
URL it is bound to) and the time of the last failed-set reset.  A call to
`getWorkingProvider` takes the current time (`Date.now()`) and a probe
oracle giving the outcome of `provider.getBlockNumber()` per URL. -/

def failResetInterval : Nat := 600000

structure RPCState where
  rpcUrls : List String
  currentIndex : Nat
  failedRpcs : List String
  provider : Option String
  lastFailResetTime : Nat
deriving DecidableEq

def moveIdx (urls : List String) (i : Nat) : Nat := (i + 1) % urls.length

/-- The `while (attempts < this.rpcUrls.length)` loop of
`getWorkingProvider`: skip failed URLs, otherwise connect (binding the
provider to the URL) and probe it; on probe success return it, on
failure add it to the failed set and advance the cursor.  Returns
(result, cursor, failed set, bound provider). -/
def getWorkingLoop (probe : String → Bool) (urls : List String) :
    Nat → Nat → List String → Option String →
    Option String × Nat × List String × Option String
  | 0, idx, failed, prov => (none, idx, failed, prov)
  | attempts + 1, idx, failed, prov =>
    let url := urls.getD idx ""
    if url ∈ failed then
      getWorkingLoop probe urls attempts (moveIdx urls idx) failed prov
    else if probe url then (some url, idx, failed, some url)
    else getWorkingLoop probe urls attempts (moveIdx urls idx) (url :: failed) (some url)

/-- `getWorkingProvider`: first clear the failed set if more than
`failResetInterval` has elapsed since the last reset, then walk the pool
once; `none` as first component models the thrown
"All RPCs failed!" error. -/
def getWorkingProvider (st : RPCState) (now : Nat) (probe : String → Bool) :
    Option String × RPCState :=
  let failed0 := if st.lastFailResetTime + failResetInterval < now then [] else st.failedRpcs
  let reset0 := if st.lastFailResetTime + failResetInterval < now then now
    else st.lastFailResetTime
  let r := getWorkingLoop probe st.rpcUrls st.rpcUrls.length st.currentIndex failed0
    st.provider
  (r.1,
    { rpcUrls := st.rpcUrls, currentIndex := r.2.1, failedRpcs := r.2.2.1,
      provider := r.2.2.2, lastFailResetTime := reset0 })

/-- A sequence of `acquire()` calls, each with its own `Date.now()` value
and probe oracle, threading the manager state. -/
def acquireSeq (st : RPCState) : List (Nat × (String → Bool)) →
    List (Option String) × RPCState
  | [] => ([], st)
  | c :: cs =>
    let r := getWorkingProvider st c.1 c.2
    let rest := acquireSeq r.2 cs
    (r.1 :: rest.1, rest.2)

theorem getWorkingLoop_failed (probe : String → Bool) (urls : List String) (A : String) :
    ∀ (attempts idx : Nat) (failed : List String) (prov : Option String),
      A ∈ failed →
      (getWorkingLoop probe urls attempts idx failed prov).1 ≠ some A ∧
      A ∈ (getWorkingLoop probe urls attempts idx failed prov).2.2.1 := by
  intro attempts
  induction attempts with
  | zero => intro idx failed prov hA; exact ⟨by simp [getWorkingLoop], hA⟩
  | succ a ih =>
    intro idx failed prov hA
    simp only [getWorkingLoop]
    by_cases hmem : urls.getD idx "" ∈ failed
    · rw [if_pos hmem]
      exact ih (moveIdx urls idx) failed prov hA
    · rw [if_neg hmem]
      by_cases hp : probe (urls.getD idx "") = true
      · rw [if_pos hp]
        refine ⟨?_, hA⟩
        intro hcon
        have : urls.getD idx "" = A := Option.some.inj hcon
        exact hmem (this ▸ hA)
      · rw [if_neg hp]
        exact ih (moveIdx urls idx) (urls.getD idx "" :: failed) (some (urls.getD idx ""))
          (List.mem_cons_of_mem _ hA)

theorem getWorkingLoop_none_iff (probe : String → Bool) (urls : List String) :
    ∀ (attempts idx : Nat) (failed : List String) (prov : Option String),
      idx < urls.length →
      ((getWorkingLoop probe urls attempts idx failed prov).1 = none ↔
      ∀ j < attempts, urls.getD ((idx + j) % urls.length) "" ∈ failed ∨
        probe (urls.getD ((idx + j) % urls.length) "") = false) := by
  intro attempts
  induction attempts with
  | zero =>
    intro idx failed prov hidx
    simp [getWorkingLoop]
  | succ a ih =>
    intro idx failed prov hidx
    have hn : 0 < urls.length := by omega
    have hmove : moveIdx urls idx < urls.length := Nat.mod_lt _ hn
    have hid0 : (idx + 0) % urls.length = idx := by
      rw [Nat.add_zero, Nat.mod_eq_of_lt hidx]
    have hshift : ∀ (failed' : List String) (prov' : Option String),
        ((getWorkingLoop probe urls a (moveIdx urls idx) failed' prov').1 = none ↔
          ∀ j < a, urls.getD ((idx + 1 + j) % urls.length) "" ∈ failed' ∨
            probe (urls.getD ((idx + 1 + j) % urls.length) "") = false) := by
      intro failed' prov'
      rw [ih (moveIdx urls idx) failed' prov' hmove]
      constructor
      · intro h j hj
        have := h j hj
        rwa [moveIdx, Nat.mod_add_mod] at this
      · intro h j hj
        have := h j hj
        rwa [moveIdx, Nat.mod_add_mod]
    simp only [getWorkingLoop]
    by_cases hmem : urls.getD idx "" ∈ failed
    · rw [if_pos hmem, hshift failed prov]
      constructor
      · intro h j hj
        cases j with
        | zero => rw [hid0]; exact Or.inl hmem
        | succ j0 =>
          have := h j0 (by omega)
          rwa [show idx + 1 + j0 = idx + (j0 + 1) by omega] at this
      · intro h j hj
        have := h (j + 1) (by omega)
        rwa [show idx + (j + 1) = idx + 1 + j by omega] at this
    · rw [if_neg hmem]
      by_cases hp : probe (urls.getD idx "") = true
      · rw [if_pos hp]
        constructor
        · intro h
          simp at h
        · intro h
          exfalso
          have := h 0 (by omega)
          rw [hid0] at this
          rcases this with hl | hr
          · exact hmem hl
          · rw [hp] at hr
            exact Bool.noConfusion hr
      · rw [if_neg hp]
        have hpf : probe (urls.getD idx "") = false := by
          revert hp
          cases probe (urls.getD idx "") <;> simp
        rw [hshift (urls.getD idx "" :: failed) (some (urls.getD idx ""))]
        constructor
        · intro h j hj
          cases j with
          | zero => rw [hid0]; exact Or.inr hpf
          | succ j0 =>
            have := h j0 (by omega)
            rw [show idx + 1 + j0 = idx + (j0 + 1) by omega] at this
            rcases this with hl | hr
            · rcases List.mem_cons.mp hl with heq | hmem2
              · exact Or.inr (heq ▸ hpf)
              · exact Or.inl hmem2
            · exact Or.inr hr
        · intro h j hj
          have := h (j + 1) (by omega)
          rw [show idx + (j + 1) = idx + 1 + j by omega] at this
          rcases this with hl | hr
          · exact Or.inl (List.mem_cons_of_mem _ hl)
          · exact Or.inr hr

theorem forall_mod_shift (n c : Nat) (hc : c < n) (P : Nat → Prop) :
    (∀ j < n, P ((c + j) % n)) ↔ ∀ i < n, P i := by
  constructor
  · intro h i hi
    by_cases hci : c ≤ i
    · have := h (i - c) (by omega)
      rwa [show c + (i - c) = i by omega, Nat.mod_eq_of_lt hi] at this
    · have := h (i + n - c) (by omega)
      rwa [show c + (i + n - c) = i + n by omega, Nat.add_mod_right, Nat.mod_eq_of_lt hi]
        at this
  · intro h j hj
    exact h _ (Nat.mod_lt _ (by omega))

theorem forall_getD (urls : List String) (P : String → Prop) :
    (∀ i < urls.length, P (urls.getD i "")) ↔ ∀ u ∈ urls, P u := by
  constructor
  · intro h u hu
    obtain ⟨i, hi, rfl⟩ := List.mem_iff_getElem.mp hu
    have := h i hi
    rwa [List.getD_eq_getElem?_getD, List.getElem?_eq_getElem hi, Option.getD_some] at this
  · intro h i hi
    rw [List.getD_eq_getElem?_getD, List.getElem?_eq_getElem hi, Option.getD_some]
    exact h _ (List.getElem_mem hi)

theorem getWorkingProvider_failed_stays (st : RPCState) (now : Nat)
    (probe : String → Bool) (A : String) (hA : A ∈ st.failedRpcs)
    (hnow : now ≤ st.lastFailResetTime + failResetInterval) :
    (getWorkingProvider st now probe).1 ≠ some A ∧
    A ∈ (getWorkingProvider st now probe).2.failedRpcs ∧
    (getWorkingProvider st now probe).2.lastFailResetTime = st.lastFailResetTime := by
  have hcond : ¬ (st.lastFailResetTime + failResetInterval < now) := by omega
  obtain ⟨h1, h2⟩ := getWorkingLoop_failed probe st.rpcUrls A st.rpcUrls.length
    st.currentIndex st.failedRpcs st.provider hA
  refine ⟨?_, ?_, ?_⟩ <;> simp only [getWorkingProvider, if_neg hcond]
  · exact h1
  · exact h2

theorem acquireSeq_failed_never (A : String) :
    ∀ (calls : List (Nat × (String → Bool))) (st : RPCState), A ∈ st.failedRpcs →
      (∀ c ∈ calls, c.1 ≤ st.lastFailResetTime + failResetInterval) →
      some A ∉ (acquireSeq st calls).1 := by
  intro calls
  induction calls with
  | nil => intro st hA hcall; simp [acquireSeq]
  | cons c cs ih =>
    intro st hA hcall
    obtain ⟨h1, h2, h3⟩ := getWorkingProvider_failed_stays st c.1 c.2 A hA
      (hcall c (List.mem_cons_self c cs))
    have hnext : ∀ d ∈ cs,
        d.1 ≤ (getWorkingProvider st c.1 c.2).2.lastFailResetTime + failResetInterval := by
      intro d hd
      rw [h3]
      exact hcall d (List.mem_cons_of_mem _ hd)
    simp only [acquireSeq, List.mem_cons]
    intro hmem
    rcases hmem with heq | hmem2
    · exact h1 heq.symm
    · exact ih (getWorkingProvider st c.1 c.2).2 h2 hnext hmem2

/-- C9: (a) once endpoint A is in the failed set, no `acquire()` call in a
sequence of calls all made within the reset interval ever returns A, and A
stays in the failed set with the reset time unchanged; (b) once the reset
interval has elapsed, the call behaves exactly as with an empty failed set
and a fresh reset time (the failed set is cleared), so A is eligible
again — in particular if the cursor points at A and A probes alive, the
call returns A; (c) `acquire()` fails with the all-endpoints-unavailable
error exactly when every endpoint of the pool is exhausted in the single
pass: each URL is either already in the (possibly just reset) failed set
or fails its liveness probe. -/
theorem rpc_selector_spec :
    (∀ (st : RPCState) (calls : List (Nat × (String → Bool))) (A : String),
      A ∈ st.failedRpcs →
      (∀ c ∈ calls, c.1 ≤ st.lastFailResetTime + failResetInterval) →
      some A ∉ (acquireSeq st calls).1) ∧
    (∀ (st : RPCState) (now : Nat) (probe : String → Bool),
      st.lastFailResetTime + failResetInterval < now →
      getWorkingProvider st now probe =
        getWorkingProvider
          { st with failedRpcs := [], lastFailResetTime := now } now probe) ∧
    (∀ (st : RPCState) (now : Nat) (probe : String → Bool) (A : String),
      st.lastFailResetTime + failResetInterval < now →
      st.rpcUrls.getD st.currentIndex "" = A → probe A = true →
      0 < st.rpcUrls.length →
      (getWorkingProvider st now probe).1 = some A) ∧
    (∀ (st : RPCState) (now : Nat) (probe : String → Bool),
      st.currentIndex < st.rpcUrls.length →
      ((getWorkingProvider st now probe).1 = none ↔
        ∀ u ∈ st.rpcUrls,
          u ∈ (if st.lastFailResetTime + failResetInterval < now then ([] : List String)
            else st.failedRpcs) ∨ probe u = false)) := by
  refine ⟨?_, ?_, ?_, ?_⟩
  · intro st calls A hA hcall
    exact acquireSeq_failed_never A calls st hA hcall
  · intro st now probe h
    have hc2 : ¬ (now + failResetInterval < now) := by omega
    simp only [getWorkingProvider, if_pos h, if_neg hc2]
  · intro st now probe A h hgetD hprobe hlen
    obtain ⟨k, hk⟩ : ∃ k, st.rpcUrls.length = k + 1 := ⟨st.rpcUrls.length - 1, by omega⟩
    simp only [getWorkingProvider, if_pos h, hk, getWorkingLoop, hgetD,
      List.not_mem_nil, if_false, hprobe, if_true]
  · intro st now probe hidx
    simp only [getWorkingProvider]
    rw [getWorkingLoop_none_iff probe st.rpcUrls st.rpcUrls.length st.currentIndex _
      st.provider hidx]
    rw [forall_mod_shift st.rpcUrls.length st.currentIndex hidx
      (fun i => st.rpcUrls.getD i "" ∈
        (if st.lastFailResetTime + failResetInterval < now then ([] : List String)
          else st.failedRpcs) ∨ probe (st.rpcUrls.getD i "") = false)]
    rw [forall_getD st.rpcUrls
      (fun u => u ∈ (if st.lastFailResetTime + failResetInterval < now
        then ([] : List String) else st.failedRpcs) ∨ probe u = false)]

/-- Witness for `rpc_selector_spec`: with endpoint "a" marked failed and a
single call made within the reset interval, "a" is never returned. -/
theorem rpc_selector_spec_witness :
    some "a" ∉ (acquireSeq ⟨["a", "b"], 0, ["a"], none, 0⟩
      [(0, fun _ => true)]).1 :=
  rpc_selector_spec.1 ⟨["a", "b"], 0, ["a"], none, 0⟩ [(0, fun _ => true)] "a"
    (by decide) (by decide)

/-! ### executeWithRetry (src/dex/index.js lines 192-219)

Each attempt calls `getWorkingProvider` and then runs the operation;
`probes i` / `ops i` / `times i` give the probe oracle, the operation
outcome and the `Date.now()` value of the i-th `acquire()` call (`ops`
returns `none` for a thrown operation).  The events record sleeps,
failed-endpoint markings and cursor advances in order. -/

inductive RetryEv where
  | acquired (res : Option String) : RetryEv
  | opRun (url : String) (ok : Bool) : RetryEv
  | markFailed (url : String) : RetryEv
  | advanceCursor : RetryEv
  | sleepMs (ms : Nat) : RetryEv
deriving DecidableEq

inductive RetryResult where
  | ok (v : Nat) : RetryResult
  | thrown : RetryResult
  | outOfFuel : RetryResult
  | noAttempts : RetryResult
deriving DecidableEq

/-- Outcome of one pass of the `for (attempt = 1; attempt <= maxRetries)`
loop: either done (value returned, error thrown to the caller, or the loop
body never ran), or a restart of the whole `executeWithRetry` with a fresh
attempt budget (the recursive call after the 30 s sleep). -/
inductive AttemptsOut where
  | done (r : RetryResult) (st : RPCState) (evs : List RetryEv) (callIdx : Nat) : AttemptsOut
  | restart (st : RPCState) (evs : List RetryEv) (callIdx : Nat) : AttemptsOut
deriving DecidableEq

def retryAttempts (probes : Nat → String → Bool) (ops : Nat → String → Option Nat)
    (times : Nat → Nat) (maxRetries : Nat) :
    Nat → Nat → Nat → RPCState → AttemptsOut
  | 0, ci, _, st => .done .noAttempts st [] ci
  | left + 1, ci, attempt, st =>
    let acq := getWorkingProvider st (times ci) (probes ci)
    match acq.1 with
    | some url =>
      match ops ci url with
      | some v => .done (.ok v) acq.2 [.acquired (some url), .opRun url true] (ci + 1)
      | none =>
        if attempt = maxRetries then
          .done .thrown acq.2 [.acquired (some url), .opRun url false] (ci + 1)
        else
          let st2 := match acq.2.provider with
            | some u => { acq.2 with failedRpcs := u :: acq.2.failedRpcs }
            | none => acq.2
          let evs1 := match acq.2.provider with
            | some u => [RetryEv.acquired (some url), .opRun url false, .markFailed u,
                .advanceCursor, .sleepMs (2000 * attempt)]
            | none => [RetryEv.acquired (some url), .opRun url false, .advanceCursor,
                .sleepMs (2000 * attempt)]
          let st3 := { st2 with currentIndex := moveIdx st2.rpcUrls st2.currentIndex }
          match retryAttempts probes ops times maxRetries left (ci + 1) (attempt + 1) st3 with
          | .done r st4 evs ci2 => .done r st4 (evs1 ++ evs) ci2
          | .restart st4 evs ci2 => .restart st4 (evs1 ++ evs) ci2
    | none =>
      if attempt = maxRetries then
        .restart acq.2 [.acquired none, .sleepMs 30000] (ci + 1)
      else
        let st2 := match acq.2.provider with
          | some u => { acq.2 with failedRpcs := u :: acq.2.failedRpcs }
          | none => acq.2
        let evs1 := match acq.2.provider with
          | some u => [RetryEv.acquired none, .markFailed u, .advanceCursor,
              .sleepMs (2000 * attempt)]
          | none => [RetryEv.acquired none, .advanceCursor, .sleepMs (2000 * attempt)]
        let st3 := { st2 with currentIndex := moveIdx st2.rpcUrls st2.currentIndex }
        match retryAttempts probes ops times maxRetries left (ci + 1) (attempt + 1) st3 with
        | .done r st4 evs ci2 => .done r st4 (evs1 ++ evs) ci2
        | .restart st4 evs ci2 => .restart st4 (evs1 ++ evs) ci2

/-- `executeWithRetry(operation, maxRetries)`: run the attempt loop
starting at attempt 1; on the pool-exhaustion restart path, recurse with a
fresh attempt budget.  `fuel` bounds the number of restarts (the code
recursion is unbounded by design); `.outOfFuel` marks the truncation. -/
def executeWithRetry (probes : Nat → String → Bool) (ops : Nat → String → Option Nat)
    (times : Nat → Nat) (maxRetries : Nat) :
    Nat → Nat → RPCState → RetryResult × RPCState × List RetryEv × Nat
  | 0, ci, st => (.outOfFuel, st, [], ci)
  | fuel + 1, ci, st =>
    match retryAttempts probes ops times maxRetries maxRetries ci 1 st with
    | .done r st1 evs ci1 => (r, st1, evs, ci1)
    | .restart st1 evs ci1 =>
      match executeWithRetry probes ops times maxRetries fuel ci1 st1 with
      | (r, st2, evs2, ci2) => (r, st2, evs ++ evs2, ci2)

/-- C8 is refuted as stated: with two endpoints that are both down on the
first call (a total-pool-exhaustion failure) at attempt 1 of maxRetries 2,
the code does not sleep 30 s and restart with a fresh budget; it treats
the exhaustion like any other failure — marks the (stale) bound endpoint
failed, advances the cursor, sleeps the linear backoff 2000·1 ms — and
continues with attempt 2 of the same budget, which succeeds after the
failed set is reset.  The full event trace shows no 30 s sleep and no
restart. -/
theorem executeWithRetry_exhaustion_cex :
    executeWithRetry
      (fun ci u => decide (ci = 1 ∧ u = "a"))
      (fun ci u => if ci = 1 ∧ u = "a" then some 7 else none)
      (fun ci => if ci = 0 then 0 else failResetInterval + 1)
      2 5 0 ⟨["a", "b"], 0, [], none, 0⟩
    = (.ok 7,
       ⟨["a", "b"], 0, ["b"], some "a", failResetInterval + 1⟩,
       [.acquired none, .markFailed "b", .advanceCursor, .sleepMs 2000,
        .acquired (some "a"), .opRun "a" true], 2) ∧
    RetryEv.sleepMs 30000 ∉
      (executeWithRetry
        (fun ci u => decide (ci = 1 ∧ u = "a"))
        (fun ci u => if ci = 1 ∧ u = "a" then some 7 else none)
        (fun ci => if ci = 0 then 0 else failResetInterval + 1)
        2 5 0 ⟨["a", "b"], 0, [], none, 0⟩).2.2.1 := by
  decide

/-- Mark the currently-bound endpoint (if any) failed:
`if (this.provider) this.failedRpcs.add(this.provider.url)`. -/
def markBound (st : RPCState) : RPCState :=
  match st.provider with
  | some u => { st with failedRpcs := u :: st.failedRpcs }
  | none => st

/-- State after the non-final failure handling: mark the bound endpoint
failed and advance the rotation cursor (`moveToNextRpc`). -/
def afterFailure (st : RPCState) : RPCState :=
  { markBound st with
    currentIndex := moveIdx (markBound st).rpcUrls (markBound st).currentIndex }

/-- Events of the non-final failure handling, after the events `first` of
the failed attempt itself. -/
def failureEvs (first : List RetryEv) (st : RPCState) (attempt : Nat) : List RetryEv :=
  first ++ (match st.provider with
    | some u => [RetryEv.markFailed u]
    | none => []) ++ [.advanceCursor, .sleepMs (2000 * attempt)]

def prependEvs (pre : List RetryEv) : AttemptsOut → AttemptsOut
  | .done r st evs ci => .done r st (pre ++ evs) ci
  | .restart st evs ci => .restart st (pre ++ evs) ci

/-- C8 (amended): a total-pool-exhaustion failure triggers the fixed 30 s
backoff and the recursion with a fresh attempt budget only when it occurs
on the final attempt (`attempt === maxRetries`); a pool-exhaustion
failure on an earlier attempt is treated like any other failure: the
currently-bound endpoint (the last one probed) is marked failed, the
cursor advances, the run sleeps the linear backoff 2000·attempt ms and
retries with the next attempt of the same budget.  A non-exhaustion
failure on the final attempt is propagated to the caller. -/
theorem executeWithRetry_spec (probes : Nat → String → Bool)
    (ops : Nat → String → Option Nat) (times : Nat → Nat) (maxRetries : Nat) :
    (∀ (left ci attempt : Nat) (st : RPCState),
      attempt = maxRetries →
      (getWorkingProvider st (times ci) (probes ci)).1 = none →
      retryAttempts probes ops times maxRetries (left + 1) ci attempt st =
        .restart (getWorkingProvider st (times ci) (probes ci)).2
          [.acquired none, .sleepMs 30000] (ci + 1)) ∧
    (∀ (fuel ci ci1 : Nat) (st st1 : RPCState) (evs : List RetryEv),
      retryAttempts probes ops times maxRetries maxRetries ci 1 st =
        .restart st1 evs ci1 →
      executeWithRetry probes ops times maxRetries (fuel + 1) ci st =
        ((executeWithRetry probes ops times maxRetries fuel ci1 st1).1,
         (executeWithRetry probes ops times maxRetries fuel ci1 st1).2.1,
         evs ++ (executeWithRetry probes ops times maxRetries fuel ci1 st1).2.2.1,
         (executeWithRetry probes ops times maxRetries fuel ci1 st1).2.2.2)) ∧
    (∀ (left ci attempt : Nat) (st : RPCState) (url : String),
      attempt = maxRetries →
      (getWorkingProvider st (times ci) (probes ci)).1 = some url →
      ops ci url = none →
      retryAttempts probes ops times maxRetries (left + 1) ci attempt st =
        .done .thrown (getWorkingProvider st (times ci) (probes ci)).2
          [.acquired (some url), .opRun url false] (ci + 1)) ∧
    (∀ (left ci attempt : Nat) (st : RPCState),
      attempt ≠ maxRetries →
      (getWorkingProvider st (times ci) (probes ci)).1 = none →
      retryAttempts probes ops times maxRetries (left + 1) ci attempt st =
        prependEvs (failureEvs [.acquired none]
            (getWorkingProvider st (times ci) (probes ci)).2 attempt)
          (retryAttempts probes ops times maxRetries left (ci + 1) (attempt + 1)
            (afterFailure (getWorkingProvider st (times ci) (probes ci)).2))) ∧
    (∀ (left ci attempt : Nat) (st : RPCState) (url : String),
      attempt ≠ maxRetries →
      (getWorkingProvider st (times ci) (probes ci)).1 = some url →
      ops ci url = none →
      retryAttempts probes ops times maxRetries (left + 1) ci attempt st =
        prependEvs (failureEvs [.acquired (some url), .opRun url false]
            (getWorkingProvider st (times ci) (probes ci)).2 attempt)
          (retryAttempts probes ops times maxRetries left (ci + 1) (attempt + 1)
            (afterFailure (getWorkingProvider st (times ci) (probes ci)).2))) := by
  refine ⟨?_, ?_, ?_, ?_, ?_⟩
  · intro left ci attempt st ha hacq
    simp only [retryAttempts, hacq, if_pos ha]
  · intro fuel ci ci1 st st1 evs hres
    simp only [executeWithRetry, hres]
  · intro left ci attempt st url ha hacq hop
    simp only [retryAttempts, hacq, hop, if_pos ha]
  · intro left ci attempt st ha hacq
    simp only [retryAttempts, hacq, if_neg ha]
    cases hprov : (getWorkingProvider st (times ci) (probes ci)).2.provider with
    | none =>
      simp only [hprov, afterFailure, markBound, failureEvs]
      cases hrec : retryAttempts probes ops times maxRetries left (ci + 1) (attempt + 1)
          { (getWorkingProvider st (times ci) (probes ci)).2 with
            currentIndex := moveIdx (getWorkingProvider st (times ci) (probes ci)).2.rpcUrls
              (getWorkingProvider st (times ci) (probes ci)).2.currentIndex } with
      | done r st4 evs ci2 => simp [hprov, prependEvs, hrec]
      | restart st4 evs ci2 => simp [hprov, prependEvs, hrec]
    | some u =>
      simp only [hprov, afterFailure, markBound, failureEvs]
      cases hrec : retryAttempts probes ops times maxRetries left (ci + 1) (attempt + 1)
          { (getWorkingProvider st (times ci) (probes ci)).2 with
            failedRpcs := u :: (getWorkingProvider st (times ci) (probes ci)).2.failedRpcs,
            currentIndex := moveIdx (getWorkingProvider st (times ci) (probes ci)).2.rpcUrls
              (getWorkingProvider st (times ci) (probes ci)).2.currentIndex } with
      | done r st4 evs ci2 => simp [hprov, prependEvs, hrec]
      | restart st4 evs ci2 => simp [hprov, prependEvs, hrec]
  · intro left ci attempt st url ha hacq hop
    simp only [retryAttempts, hacq, hop, if_neg ha]
    cases hprov : (getWorkingProvider st (times ci) (probes ci)).2.provider with
    | none =>
      simp only [hprov, afterFailure, markBound, failureEvs]
      cases hrec : retryAttempts probes ops times maxRetries left (ci + 1) (attempt + 1)
          { (getWorkingProvider st (times ci) (probes ci)).2 with
            currentIndex := moveIdx (getWorkingProvider st (times ci) (probes ci)).2.rpcUrls
              (getWorkingProvider st (times ci) (probes ci)).2.currentIndex } with
      | done r st4 evs ci2 => simp [hprov, prependEvs, hrec]
      | restart st4 evs ci2 => simp [hprov, prependEvs, hrec]
    | some u =>
      simp only [hprov, afterFailure, markBound, failureEvs]
      cases hrec : retryAttempts probes ops times maxRetries left (ci + 1) (attempt + 1)
          { (getWorkingProvider st (times ci) (probes ci)).2 with
            failedRpcs := u :: (getWorkingProvider st (times ci) (probes ci)).2.failedRpcs,
            currentIndex := moveIdx (getWorkingProvider st (times ci) (probes ci)).2.rpcUrls
              (getWorkingProvider st (times ci) (probes ci)).2.currentIndex } with
      | done r st4 evs ci2 => simp [hprov, prependEvs, hrec]
      | restart st4 evs ci2 => simp [hprov, prependEvs, hrec]

/-- Witness for `executeWithRetry_spec`: a pool-exhaustion failure at the
final attempt of a budget of 1 produces the 30 s sleep and a restart. -/
theorem executeWithRetry_spec_witness :
    retryAttempts (fun _ _ => false) (fun _ _ => none) (fun _ => 0) 1 1 0 1
      ⟨["a"], 0, [], none, 0⟩ =
    .restart ⟨["a"], 0, ["a"], some "a", 0⟩ [.acquired none, .sleepMs 30000] 1 := by
  rw [(executeWithRetry_spec (fun _ _ => false) (fun _ _ => none) (fun _ => 0) 1).1
    0 0 1 ⟨["a"], 0, [], none, 0⟩ rfl (by decide)]
  decide

/-! ### JSON text (for appendSwapsToFile, src/dex/index.js lines 285-345)

File contents are lists of characters.  `parseTop` models `JSON.parse`
restricted to syntax checking and reading the document structure: values
are kept as their source tokens (numbers as their literal text, strings as
their escaped bodies), which is all the append protocol's validation uses.
Whitespace follows the JSON grammar (space, tab, line feed, carriage
return). -/

def isWsChar (c : Char) : Bool :=
  c = ' ' || c = '\t' || c = '\n' || c = '\r'

def skipWs : List Char → List Char
  | [] => []
  | c :: cs => if isWsChar c then skipWs cs else c :: cs

/-- The whitespace run removed by `skipWs`. -/
def wsLead : List Char → List Char
  | [] => []
  | c :: cs => if isWsChar c then c :: wsLead cs else []

def dropLeadWs (l : List Char) : List Char := l.dropWhile (fun c => isWsChar c)

def dropTrailWs (l : List Char) : List Char :=
  (l.reverse.dropWhile (fun c => isWsChar c)).reverse

/-- Model of JavaScript `.trim()` on the whitespace alphabet occurring in
the JSON texts involved. -/
def trimChars (l : List Char) : List Char := dropTrailWs (dropLeadWs l)

/-! #### Number tokens (JSON number grammar) -/

def parseFrac (cs : List Char) : List Char × List Char :=
  match cs with
  | '.' :: r =>
    let ds := r.takeWhile Char.isDigit
    if ds.isEmpty then ([], cs) else ('.' :: ds, r.dropWhile Char.isDigit)
  | _ => ([], cs)

def parseExpTail (e : Char) (r : List Char) : Option (List Char × List Char) :=
  match r with
  | '+' :: r2 =>
    let ds := r2.takeWhile Char.isDigit
    if ds.isEmpty then none else some (e :: '+' :: ds, r2.dropWhile Char.isDigit)
  | '-' :: r2 =>
    let ds := r2.takeWhile Char.isDigit
    if ds.isEmpty then none else some (e :: '-' :: ds, r2.dropWhile Char.isDigit)
  | _ =>
    let ds := r.takeWhile Char.isDigit
    if ds.isEmpty then none else some (e :: ds, r.dropWhile Char.isDigit)

def parseExp (cs : List Char) : List Char × List Char :=
  match cs with
  | 'e' :: r =>
    match parseExpTail 'e' r with
    | some p => p
    | none => ([], cs)
  | 'E' :: r =>
    match parseExpTail 'E' r with
    | some p => p
    | none => ([], cs)
  | _ => ([], cs)

def parseFracExp (cs : List Char) : List Char × List Char :=
  let f := parseFrac cs
  let x := parseExp f.2
  (f.1 ++ x.1, x.2)

def parseNumMag (cs : List Char) : Option (List Char × List Char) :=
  match cs with
  | '0' :: r =>
    let fe := parseFracExp r
    some ('0' :: fe.1, fe.2)
  | c :: r =>
    if c.isDigit then
      let ds := r.takeWhile Char.isDigit
      let fe := parseFracExp (r.dropWhile Char.isDigit)
      some (c :: (ds ++ fe.1), fe.2)
    else none
  | [] => none

def parseNumber (cs : List Char) : Option (List Char × List Char) :=
  match cs with
  | '-' :: r =>
    match parseNumMag r with
    | some (tok, rest) => some ('-' :: tok, rest)
    | none => none
  | _ => parseNumMag cs

/-! #### String tokens -/

def isHexDigit (c : Char) : Bool :=
  c.isDigit || ('a' ≤ c && c ≤ 'f') || ('A' ≤ c && c ≤ 'F')

def isSimpleEsc (c : Char) : Bool :=
  c = '"' || c = '\\' || c = '/' || c = 'b' || c = 'f' || c = 'n' || c = 'r' || c = 't'

mutual
/-- Scan a string body after the opening quote, up to the closing quote;
returns the escaped body and the remainder after the closing quote. -/
def parseStringBody : List Char → Option (List Char × List Char)
  | [] => none
  | '"' :: rest => some ([], rest)
  | '\\' :: e :: r =>
    if isSimpleEsc e then
      match parseStringBody r with
      | some (b, rest) => some ('\\' :: e :: b, rest)
      | none => none
    else if e = 'u' then parseStringBodyU r
    else none
  | '\\' :: [] => none
  | c :: r =>
    if c.toNat < 32 then none
    else
      match parseStringBody r with
      | some (b, rest) => some (c :: b, rest)
      | none => none

def parseStringBodyU : List Char → Option (List Char × List Char)
  | h1 :: h2 :: h3 :: h4 :: r2 =>
    if isHexDigit h1 && isHexDigit h2 && isHexDigit h3 && isHexDigit h4 then
      match parseStringBody r2 with
      | some (b, rest) => some ('\\' :: 'u' :: h1 :: h2 :: h3 :: h4 :: b, rest)
      | none => none
    else none
  | _ => none
end

mutual
/-- Validity of an escaped string body (what may appear between the
quotes). -/
def strBodyOk : List Char → Bool
  | [] => true
  | '\\' :: e :: r =>
    if isSimpleEsc e then strBodyOk r
    else if e = 'u' then strBodyOkU r
    else false
  | '\\' :: [] => false
  | c :: r => decide (c ≠ '"') && decide (c ≠ '\\') && decide (32 ≤ c.toNat) && strBodyOk r

def strBodyOkU : List Char → Bool
  | h1 :: h2 :: h3 :: h4 :: r2 =>
    isHexDigit h1 && isHexDigit h2 && isHexDigit h3 && isHexDigit h4 && strBodyOk r2
  | _ => false
end

/-! #### Documents -/

inductive Json where
  | null : Json
  | bool (b : Bool) : Json
  | num (tok : List Char) : Json
  | str (body : List Char) : Json
  | arr (elems : List Json) : Json
  | obj (members : List (List Char × Json)) : Json

def Json.isObjB : Json → Bool
  | .obj _ => true
  | _ => false

mutual
def parseVal : Nat → List Char → Option (Json × List Char)
  | 0, _ => none
  | fuel + 1, cs =>
    match skipWs cs with
    | '{' :: r => parseObjBody fuel r
    | '[' :: r => parseArrBody fuel r
    | '"' :: r =>
      match parseStringBody r with
      | some (b, rest) => some (.str b, rest)
      | none => none
    | 't' :: 'r' :: 'u' :: 'e' :: rest => some (.bool true, rest)
    | 'f' :: 'a' :: 'l' :: 's' :: 'e' :: rest => some (.bool false, rest)
    | 'n' :: 'u' :: 'l' :: 'l' :: rest => some (.null, rest)
    | other =>
      match parseNumber other with
      | some (tok, rest) => some (.num tok, rest)
      | none => none

def parseArrBody : Nat → List Char → Option (Json × List Char)
  | 0, _ => none
  | fuel + 1, cs =>
    match skipWs cs with
    | ']' :: rest => some (.arr [], rest)
    | other =>
      match parseVal fuel other with
      | some (v, r2) =>
        match parseArrRest fuel r2 with
        | some (vs, r3) => some (.arr (v :: vs), r3)
        | none => none
      | none => none

def parseArrRest : Nat → List Char → Option (List Json × List Char)
  | 0, _ => none
  | fuel + 1, cs =>
    match skipWs cs with
    | ']' :: rest => some ([], rest)
    | ',' :: r =>
      match parseVal fuel r with
      | some (v, r2) =>
        match parseArrRest fuel r2 with
        | some (vs, r3) => some (v :: vs, r3)
        | none => none
      | none => none
    | _ => none

def parseObjBody : Nat → List Char → Option (Json × List Char)
  | 0, _ => none
  | fuel + 1, cs =>
    match skipWs cs with
    | '}' :: rest => some (.obj [], rest)
    | '"' :: r =>
      match parseStringBody r with
      | some (k, r2) =>
        match skipWs r2 with
        | ':' :: r3 =>
          match parseVal fuel r3 with
          | some (v, r4) =>
            match parseObjRest fuel r4 with
            | some (ms, r5) => some (.obj ((k, v) :: ms), r5)
            | none => none
          | none => none
        | _ => none
      | none => none
    | _ => none

def parseObjRest : Nat → List Char → Option (List (List Char × Json) × List Char)
  | 0, _ => none
  | fuel + 1, cs =>
    match skipWs cs with
    | '}' :: rest => some ([], rest)
    | ',' :: r =>
      match skipWs r with
      | '"' :: r1 =>
        match parseStringBody r1 with
        | some (k, r2) =>
          match skipWs r2 with
          | ':' :: r3 =>
            match parseVal fuel r3 with
            | some (v, r4) =>
              match parseObjRest fuel r4 with
              | some (ms, r5) => some ((k, v) :: ms, r5)
              | none => none
            | none => none
          | _ => none
        | none => none
      | _ => none
    | _ => none
end

/-- Model of `JSON.parse` as used by the append protocol: parse one value
and require only trailing whitespace after it. -/
def parseTop (cs : List Char) : Option Json :=
  match parseVal (2 * cs.length + 2) cs with
  | some (v, rest) => if (skipWs rest).isEmpty then some v else none
  | none => none

/-! #### Whitespace lemmas -/

def AllWs (l : List Char) : Prop := ∀ c ∈ l, isWsChar c = true

theorem allWs_nil : AllWs [] := by intro c hc; simp at hc

theorem skipWs_ws_append (ws : List Char) (h : AllWs ws) (x : List Char) :
    skipWs (ws ++ x) = skipWs x := by
  induction ws with
  | nil => rfl
  | cons c r ih =>
    have hc : isWsChar c = true := h c (List.mem_cons_self c r)
    have hr : AllWs r := fun d hd => h d (List.mem_cons_of_mem _ hd)
    simp only [List.cons_append, skipWs, hc, if_true]
    exact ih hr

theorem skipWs_cons_nonws (c : Char) (x : List Char) (h : isWsChar c = false) :
    skipWs (c :: x) = c :: x := by
  simp [skipWs, h]

theorem skipWs_eq_nil (ws : List Char) (h : AllWs ws) : skipWs ws = [] := by
  have := skipWs_ws_append ws h []
  simpa using this

theorem wsLead_decomp : ∀ cs : List Char, AllWs (wsLead cs) ∧ cs = wsLead cs ++ skipWs cs := by
  intro cs
  induction cs with
  | nil => exact ⟨allWs_nil, rfl⟩
  | cons c r ih =>
    by_cases hc : isWsChar c = true
    · refine ⟨?_, ?_⟩
      · intro d hd
        simp only [wsLead, hc, if_true] at hd
        rcases List.mem_cons.mp hd with rfl | hd2
        · exact hc
        · exact ih.1 d hd2
      · simp only [wsLead, skipWs, hc, if_true, List.cons_append]
        rw [← ih.2]
    · have hcf : isWsChar c = false := by revert hc; cases isWsChar c <;> simp
      refine ⟨?_, ?_⟩
      · intro d hd
        simp [wsLead, hcf] at hd
      · simp [wsLead, skipWs, hcf]

/-! #### takeWhile and dropWhile helpers -/

def HeadNot (p : Char → Bool) : List Char → Prop
  | [] => True
  | c :: _ => p c = false

theorem takeWhile_append_of (p : Char → Bool) :
    ∀ (a rest : List Char), (∀ x ∈ a, p x = true) → HeadNot p rest →
      (a ++ rest).takeWhile p = a ∧ (a ++ rest).dropWhile p = rest := by
  intro a
  induction a with
  | nil =>
    intro rest ha hr
    cases rest with
    | nil => exact ⟨rfl, rfl⟩
    | cons c r =>
      have : p c = false := hr
      constructor
      · simp [List.takeWhile_cons, this]
      · simp [List.dropWhile_cons, this]
  | cons x a2 ih =>
    intro rest ha hr
    have hx : p x = true := ha x (List.mem_cons_self x a2)
    have ha2 : ∀ y ∈ a2, p y = true := fun y hy => ha y (List.mem_cons_of_mem _ hy)
    obtain ⟨h1, h2⟩ := ih rest ha2 hr
    constructor
    · simp [List.takeWhile_cons, hx, h1]
    · simp [List.dropWhile_cons, hx, h2]

theorem takeWhile_all (p : Char → Bool) :
    ∀ l : List Char, ∀ x ∈ l.takeWhile p, p x = true := by
  intro l
  induction l with
  | nil => intro x hx; simp at hx
  | cons c r ih =>
    intro x hx
    by_cases hc : p c = true
    · rw [List.takeWhile_cons, if_pos hc] at hx
      rcases List.mem_cons.mp hx with rfl | hx2
      · exact hc
      · exact ih x hx2
    · rw [List.takeWhile_cons, if_neg hc] at hx
      simp at hx

theorem dropWhile_head (p : Char → Bool) :
    ∀ l : List Char, HeadNot p (l.dropWhile p) := by
  intro l
  induction l with
  | nil => trivial
  | cons c r ih =>
    by_cases hc : p c = true
    · rw [List.dropWhile_cons, if_pos hc]
      exact ih
    · rw [List.dropWhile_cons, if_neg hc]
      have : p c = false := by revert hc; cases p c <;> simp
      exact this

theorem takeWhile_dropWhile_eq (p : Char → Bool) (l : List Char) :
    l.takeWhile p ++ l.dropWhile p = l :=
  List.takeWhile_append_dropWhile p l

/-! #### Number token shape -/

def numCont (c : Char) : Bool :=
  c.isDigit || c = '.' || c = 'e' || c = 'E' || c = '+' || c = '-'

def notNumCont : List Char → Prop
  | [] => True
  | c :: _ => numCont c = false

def SignOk (s : List Char) : Prop := s = [] ∨ s = ['-']

def IntOk (s : List Char) : Prop :=
  s = ['0'] ∨ (∃ c ds, s = c :: ds ∧ c.isDigit = true ∧ c ≠ '0' ∧ ∀ d ∈ ds, d.isDigit = true)

def FracOk (s : List Char) : Prop :=
  s = [] ∨ ∃ ds, s = '.' :: ds ∧ ds ≠ [] ∧ ∀ d ∈ ds, d.isDigit = true

def ExpOk (s : List Char) : Prop :=
  s = [] ∨ ∃ e sg ds, s = e :: sg ++ ds ∧ (e = 'e' ∨ e = 'E') ∧
    (sg = [] ∨ sg = ['+'] ∨ sg = ['-']) ∧ ds ≠ [] ∧ ∀ d ∈ ds, d.isDigit = true

def NumShape (s : List Char) : Prop :=
  ∃ sgn intp frac ex, s = sgn ++ intp ++ frac ++ ex ∧ SignOk sgn ∧ IntOk intp ∧
    FracOk frac ∧ ExpOk ex

theorem notNumCont_facts : ∀ (rest : List Char), notNumCont rest →
    HeadNot Char.isDigit rest ∧ HeadNot (fun c => decide (c = '.')) rest ∧
    HeadNot (fun c => decide (c = 'e')) rest ∧ HeadNot (fun c => decide (c = 'E')) rest := by
  intro rest h
  cases rest with
  | nil => exact ⟨trivial, trivial, trivial, trivial⟩
  | cons c r =>
    have hc : numCont c = false := h
    simp only [numCont, Bool.or_eq_false_iff, decide_eq_false_iff_not] at hc
    refine ⟨hc.1.1.1.1.1, ?_, ?_, ?_⟩ <;> simp only [HeadNot, decide_eq_false_iff_not]
    · exact hc.1.1.1.1.2
    · exact hc.1.1.1.2
    · exact hc.1.1.2

theorem digit_ne (d : Char) (h : d.isDigit = true) :
    d ≠ '+' ∧ d ≠ '-' ∧ d ≠ '.' ∧ d ≠ 'e' ∧ d ≠ 'E' ∧ d ≠ '0' ∨ d = '0' := by
  by_cases h0 : d = '0'
  · exact Or.inr h0
  · refine Or.inl ⟨?_, ?_, ?_, ?_, ?_, h0⟩ <;> intro heq <;> rw [heq] at h <;> exact
      absurd h (by decide)

theorem digit_not_special (d : Char) (h : d.isDigit = true) :
    d ≠ '+' ∧ d ≠ '-' ∧ d ≠ '.' ∧ d ≠ 'e' ∧ d ≠ 'E' := by
  refine ⟨?_, ?_, ?_, ?_, ?_⟩ <;> intro heq <;> rw [heq] at h <;> exact absurd h (by decide)

theorem parseFrac_nodot (l : List Char) (h : HeadNot (fun c => decide (c = '.')) l) :
    parseFrac l = ([], l) := by
  cases l with
  | nil => rfl
  | cons c r =>
    simp only [HeadNot, decide_eq_false_iff_not] at h
    unfold parseFrac
    split
    · next r2 heq => injection heq with hx hy; exact absurd hx h
    · rfl

theorem parseExp_noe (l : List Char)
    (h1 : HeadNot (fun c => decide (c = 'e')) l)
    (h2 : HeadNot (fun c => decide (c = 'E')) l) :
    parseExp l = ([], l) := by
  cases l with
  | nil => rfl
  | cons c r =>
    simp only [HeadNot, decide_eq_false_iff_not] at h1 h2
    unfold parseExp
    split
    · next r2 heq => injection heq with hx hy; exact absurd hx h1
    · next r2 heq => injection heq with hx hy; exact absurd hx h2
    · rfl

theorem parseExpTail_replay (e : Char) (sg ds tail : List Char)
    (hsg : sg = [] ∨ sg = ['+'] ∨ sg = ['-'])
    (hne : ds ≠ []) (hds : ∀ d ∈ ds, d.isDigit = true)
    (htail : HeadNot Char.isDigit tail) :
    parseExpTail e (sg ++ ds ++ tail) = some (e :: sg ++ ds, tail) := by
  obtain ⟨d0, ds0, rfl⟩ : ∃ d0 ds0, ds = d0 :: ds0 := by
    cases ds with
    | nil => exact absurd rfl hne
    | cons d0 ds0 => exact ⟨d0, ds0, rfl⟩
  have hd0 : d0.isDigit = true := hds d0 (List.mem_cons_self _ _)
  obtain ⟨hp, hm, _, _, _⟩ := digit_not_special d0 hd0
  obtain ⟨tw, dw⟩ := takeWhile_append_of Char.isDigit (d0 :: ds0) tail hds htail
  rw [List.cons_append] at tw dw
  rcases hsg with rfl | rfl | rfl
  · simp only [List.nil_append, List.cons_append]
    unfold parseExpTail
    split
    · next r2 heq => injection heq with hx hy; exact absurd hx hp
    · next r2 heq => injection heq with hx hy; exact absurd hx hm
    · simp only [tw, dw]
      rfl
  · simp only [List.cons_append, List.nil_append]
    simp only [parseExpTail, tw, dw]
    rfl
  · simp only [List.cons_append, List.nil_append]
    simp only [parseExpTail, tw, dw]
    rfl

theorem parseExp_replay (ex tail : List Char) (hex : ExpOk ex)
    (h1 : HeadNot Char.isDigit tail)
    (he : HeadNot (fun c => decide (c = 'e')) tail)
    (hE : HeadNot (fun c => decide (c = 'E')) tail) :
    parseExp (ex ++ tail) = (ex, tail) := by
  rcases hex with rfl | ⟨e, sg, ds, rfl, hee, hsg, hne, hds⟩
  · exact parseExp_noe tail he hE
  · have hrep := parseExpTail_replay e sg ds tail hsg hne hds h1
    rcases hee with rfl | rfl
    · simp only [List.cons_append, List.append_assoc] at hrep ⊢
      simp only [parseExp, hrep]
    · simp only [List.cons_append, List.append_assoc] at hrep ⊢
      simp only [parseExp, hrep]

theorem exTail_facts (ex rest : List Char) (hex : ExpOk ex) (hrest : notNumCont rest) :
    HeadNot Char.isDigit (ex ++ rest) ∧
    HeadNot (fun c => decide (c = '.')) (ex ++ rest) := by
  obtain ⟨hd, hdot, _, _⟩ := notNumCont_facts rest hrest
  rcases hex with rfl | ⟨e, sg, ds, rfl, hee, _, _, _⟩
  · exact ⟨hd, hdot⟩
  · constructor
    · show Char.isDigit e = false
      rcases hee with rfl | rfl <;> decide
    · show decide (e = '.') = false
      rcases hee with rfl | rfl <;> decide

theorem parseFrac_replay (frac ex rest : List Char) (hf : FracOk frac) (hex : ExpOk ex)
    (hrest : notNumCont rest) :
    parseFrac (frac ++ ex ++ rest) = (frac, ex ++ rest) := by
  obtain ⟨hd1, hdot1⟩ := exTail_facts ex rest hex hrest
  rcases hf with rfl | ⟨ds, rfl, hne, hds⟩
  · rw [List.nil_append]
    exact parseFrac_nodot (ex ++ rest) hdot1
  · obtain ⟨tw, dw⟩ := takeWhile_append_of Char.isDigit ds (ex ++ rest) hds hd1
    have hemp : ds.isEmpty = false := by
      cases ds with
      | nil => exact absurd rfl hne
      | cons a b => rfl
    simp only [List.cons_append, List.append_assoc]
    simp only [parseFrac, tw, dw, hemp]
    simp

theorem parseFracExp_replay (frac ex rest : List Char) (hf : FracOk frac) (hex : ExpOk ex)
    (hrest : notNumCont rest) :
    parseFracExp (frac ++ ex ++ rest) = (frac ++ ex, rest) := by
  obtain ⟨_, _, he, hE⟩ := notNumCont_facts rest hrest
  have h1 : HeadNot Char.isDigit rest := (notNumCont_facts rest hrest).1
  unfold parseFracExp
  rw [parseFrac_replay frac ex rest hf hex hrest]
  simp only
  rw [parseExp_replay ex rest hex h1 he hE]

theorem fracExTail_not_digit (frac ex rest : List Char) (hf : FracOk frac) (hex : ExpOk ex)
    (hrest : notNumCont rest) : HeadNot Char.isDigit (frac ++ ex ++ rest) := by
  rcases hf with rfl | ⟨ds, rfl, _, _⟩
  · rw [List.nil_append]
    exact (exTail_facts ex rest hex hrest).1
  · show Char.isDigit '.' = false
    decide

theorem parseNumMag_replay (intp frac ex rest : List Char) (hi : IntOk intp)
    (hf : FracOk frac) (hex : ExpOk ex) (hrest : notNumCont rest) :
    parseNumMag (intp ++ frac ++ ex ++ rest) = some (intp ++ frac ++ ex, rest) := by
  have hfe := parseFracExp_replay frac ex rest hf hex hrest
  simp only [List.append_assoc] at hfe
  rcases hi with rfl | ⟨c, ds, rfl, hcd, hc0, hds⟩
  · simp only [List.cons_append, List.nil_append, List.append_assoc]
    simp only [parseNumMag, hfe]
  · have hdig : HeadNot Char.isDigit (frac ++ ex ++ rest) :=
      fracExTail_not_digit frac ex rest hf hex hrest
    rw [List.append_assoc] at hdig
    obtain ⟨tw, dw⟩ := takeWhile_append_of Char.isDigit ds (frac ++ (ex ++ rest)) hds hdig
    simp only [List.cons_append, List.append_assoc] at tw dw ⊢
    unfold parseNumMag
    split
    · next r heq =>
      injection heq with hx hy
      exact absurd hx hc0
    · next c2 r heq =>
      injection heq with hx hy
      subst hx
      subst hy
      rw [if_pos hcd]
      simp only [tw, dw, hfe]
    · next heq => simp at heq

theorem parseNumber_replay (tok rest : List Char) (h : NumShape tok)
    (hrest : notNumCont rest) : parseNumber (tok ++ rest) = some (tok, rest) := by
  obtain ⟨sgn, intp, frac, ex, rfl, hs, hi, hf, hex⟩ := h
  have hmag := parseNumMag_replay intp frac ex rest hi hf hex hrest
  rcases hs with rfl | rfl
  · simp only [List.nil_append, List.append_assoc] at hmag ⊢
    have hhead : ∃ c r, intp ++ (frac ++ (ex ++ rest)) = c :: r ∧ c ≠ '-' := by
      rcases hi with rfl | ⟨c, ds, rfl, hcd, _, _⟩
      · exact ⟨'0', frac ++ (ex ++ rest), by simp, by decide⟩
      · exact ⟨c, ds ++ (frac ++ (ex ++ rest)), by simp, (digit_not_special c hcd).2.1⟩
    obtain ⟨c, r, hcr, hcm⟩ := hhead
    rw [hcr] at hmag ⊢
    unfold parseNumber
    split
    · next r2 heq => injection heq with hx hy; exact absurd hx hcm
    · exact hmag
  · simp only [List.cons_append, List.nil_append, List.append_assoc] at hmag ⊢
    simp only [parseNumber, hmag]

theorem list_not_empty_of_isEmpty_false (l : List Char) (h : l.isEmpty = false) : l ≠ [] := by
  intro hn
  rw [hn] at h
  exact absurd h (by decide)

theorem parseFrac_sound (cs f r : List Char) (h : parseFrac cs = (f, r)) :
    cs = f ++ r ∧ FracOk f := by
  unfold parseFrac at h
  split at h
  · next r0 =>
    by_cases hemp : (r0.takeWhile Char.isDigit).isEmpty = true
    · rw [if_pos hemp] at h
      simp only [Prod.mk.injEq] at h
      obtain ⟨h1, h2⟩ := h
      subst h1
      subst h2
      exact ⟨rfl, Or.inl rfl⟩
    · rw [if_neg hemp] at h
      simp only [Prod.mk.injEq] at h
      obtain ⟨h1, h2⟩ := h
      subst h1
      subst h2
      refine ⟨?_, Or.inr ⟨r0.takeWhile Char.isDigit, rfl, ?_, takeWhile_all _ r0⟩⟩
      · rw [List.cons_append, takeWhile_dropWhile_eq]
      · exact list_not_empty_of_isEmpty_false _ (by revert hemp; cases
          (r0.takeWhile Char.isDigit).isEmpty <;> simp)
  · next =>
    simp only [Prod.mk.injEq] at h
    obtain ⟨h1, h2⟩ := h
    subst h1
    subst h2
    exact ⟨rfl, Or.inl rfl⟩

theorem parseExpTail_sound (e : Char) (r x rest : List Char)
    (h : parseExpTail e r = some (x, rest)) :
    ∃ sg ds, x = e :: sg ++ ds ∧ r = sg ++ ds ++ rest ∧
      (sg = [] ∨ sg = ['+'] ∨ sg = ['-']) ∧ ds ≠ [] ∧ ∀ d ∈ ds, d.isDigit = true := by
  unfold parseExpTail at h
  split at h
  · next r2 =>
    by_cases hemp : (r2.takeWhile Char.isDigit).isEmpty = true
    · rw [if_pos hemp] at h
      exact absurd h (by simp)
    · rw [if_neg hemp] at h
      simp only [Option.some.injEq, Prod.mk.injEq] at h
      obtain ⟨h1, h2⟩ := h
      subst h1
      subst h2
      refine ⟨['+'], r2.takeWhile Char.isDigit, rfl, ?_, Or.inr (Or.inl rfl),
        list_not_empty_of_isEmpty_false _ (by revert hemp; cases
          (r2.takeWhile Char.isDigit).isEmpty <;> simp), takeWhile_all _ r2⟩
      simp only [List.cons_append, List.nil_append, List.append_assoc]
      rw [takeWhile_dropWhile_eq]
  · next r2 =>
    by_cases hemp : (r2.takeWhile Char.isDigit).isEmpty = true
    · rw [if_pos hemp] at h
      exact absurd h (by simp)
    · rw [if_neg hemp] at h
      simp only [Option.some.injEq, Prod.mk.injEq] at h
      obtain ⟨h1, h2⟩ := h
      subst h1
      subst h2
      refine ⟨['-'], r2.takeWhile Char.isDigit, rfl, ?_, Or.inr (Or.inr rfl),
        list_not_empty_of_isEmpty_false _ (by revert hemp; cases
          (r2.takeWhile Char.isDigit).isEmpty <;> simp), takeWhile_all _ r2⟩
      simp only [List.cons_append, List.nil_append, List.append_assoc]
      rw [takeWhile_dropWhile_eq]
  · by_cases hemp : (r.takeWhile Char.isDigit).isEmpty = true
    · rw [if_pos hemp] at h
      exact absurd h (by simp)
    · rw [if_neg hemp] at h
      simp only [Option.some.injEq, Prod.mk.injEq] at h
      obtain ⟨h1, h2⟩ := h
      subst h1
      subst h2
      refine ⟨[], r.takeWhile Char.isDigit, rfl, ?_, Or.inl rfl,
        list_not_empty_of_isEmpty_false _ (by revert hemp; cases
          (r.takeWhile Char.isDigit).isEmpty <;> simp), takeWhile_all _ r⟩
      rw [List.nil_append, takeWhile_dropWhile_eq]

theorem parseExp_sound (cs x r : List Char) (h : parseExp cs = (x, r)) :
    cs = x ++ r ∧ ExpOk x := by
  unfold parseExp at h
  split at h
  · next r0 =>
    split at h
    · next p hp =>
      obtain ⟨x0, rest0⟩ := p
      obtain ⟨h1, h2⟩ := Prod.mk.injEq _ _ _ _ ▸ h
      subst h1
      subst h2
      obtain ⟨sg, ds, hx, hr, hsg, hne, hds⟩ := parseExpTail_sound 'e' r0 _ _ hp
      subst hx
      subst hr
      refine ⟨by simp, Or.inr ⟨'e', sg, ds, rfl, Or.inl rfl, hsg, hne, hds⟩⟩
    · next hp =>
      simp only [Prod.mk.injEq] at h
      obtain ⟨h1, h2⟩ := h
      subst h1
      subst h2
      exact ⟨rfl, Or.inl rfl⟩
  · next r0 =>
    split at h
    · next p hp =>
      obtain ⟨x0, rest0⟩ := p
      obtain ⟨h1, h2⟩ := Prod.mk.injEq _ _ _ _ ▸ h
      subst h1
      subst h2
      obtain ⟨sg, ds, hx, hr, hsg, hne, hds⟩ := parseExpTail_sound 'E' r0 _ _ hp
      subst hx
      subst hr
      refine ⟨by simp, Or.inr ⟨'E', sg, ds, rfl, Or.inr rfl, hsg, hne, hds⟩⟩
    · next hp =>
      simp only [Prod.mk.injEq] at h
      obtain ⟨h1, h2⟩ := h
      subst h1
      subst h2
      exact ⟨rfl, Or.inl rfl⟩
  · simp only [Prod.mk.injEq] at h
    obtain ⟨h1, h2⟩ := h
    subst h1
    subst h2
    exact ⟨rfl, Or.inl rfl⟩

theorem parseFracExp_sound (cs y r : List Char) (h : parseFracExp cs = (y, r)) :
    cs = y ++ r ∧ ∃ f x, y = f ++ x ∧ FracOk f ∧ ExpOk x := by
  simp only [parseFracExp] at h
  obtain ⟨hf1, hf2⟩ := parseFrac_sound cs (parseFrac cs).1 (parseFrac cs).2 rfl
  obtain ⟨hx1, hx2⟩ := parseExp_sound (parseFrac cs).2 (parseExp (parseFrac cs).2).1
    (parseExp (parseFrac cs).2).2 rfl
  simp only [Prod.mk.injEq] at h
  obtain ⟨h1, h2⟩ := h
  subst h1
  subst h2
  constructor
  · rw [List.append_assoc, ← hx1]
    exact hf1
  · exact ⟨(parseFrac cs).1, (parseExp (parseFrac cs).2).1, rfl, hf2, hx2⟩

theorem parseNumMag_sound (cs tok rest : List Char) (h : parseNumMag cs = some (tok, rest)) :
    cs = tok ++ rest ∧ ∃ intp frac ex, tok = intp ++ frac ++ ex ∧ IntOk intp ∧
      FracOk frac ∧ ExpOk ex := by
  unfold parseNumMag at h
  split at h
  · next r0 =>
    simp only [Option.some.injEq, Prod.mk.injEq] at h
    obtain ⟨h1, h2⟩ := h
    subst h1
    subst h2
    obtain ⟨hfe1, f, x, hfx, hf, hx⟩ := parseFracExp_sound r0 (parseFracExp r0).1
      (parseFracExp r0).2 rfl
    constructor
    · rw [List.cons_append, ← hfe1]
    · exact ⟨['0'], f, x, by rw [hfx]; simp, Or.inl rfl, hf, hx⟩
  · next c r0 hne0 =>
    by_cases hcd : c.isDigit = true
    · rw [if_pos hcd] at h
      simp only [Option.some.injEq, Prod.mk.injEq] at h
      obtain ⟨h1, h2⟩ := h
      subst h1
      subst h2
      obtain ⟨hfe1, f, x, hfx, hf, hx⟩ := parseFracExp_sound (r0.dropWhile Char.isDigit)
        (parseFracExp (r0.dropWhile Char.isDigit)).1
        (parseFracExp (r0.dropWhile Char.isDigit)).2 rfl
      constructor
      · simp only [List.cons_append, List.append_assoc]
        rw [← hfe1, takeWhile_dropWhile_eq]
      · refine ⟨c :: r0.takeWhile Char.isDigit, f, x, ?_,
          Or.inr ⟨c, r0.takeWhile Char.isDigit, rfl, hcd, fun hc => hne0 hc,
            takeWhile_all _ r0⟩, hf, hx⟩
        rw [hfx]
        simp
    · rw [if_neg hcd] at h
      exact absurd h (by simp)
  · exact absurd h (by simp)

theorem parseNumber_sound (cs tok rest : List Char) (h : parseNumber cs = some (tok, rest)) :
    cs = tok ++ rest ∧ NumShape tok := by
  unfold parseNumber at h
  split at h
  · next r0 =>
    cases hp : parseNumMag r0 with
    | none =>
      rw [hp] at h
      exact absurd h (by simp)
    | some p =>
      obtain ⟨tok0, rest0⟩ := p
      rw [hp] at h
      simp only [Option.some.injEq, Prod.mk.injEq] at h
      obtain ⟨h1, h2⟩ := h
      subst h1
      subst h2
      obtain ⟨hr, intp, frac, ex, hshape, hi, hf, hx⟩ := parseNumMag_sound r0 tok0 rest0 hp
      constructor
      · rw [List.cons_append, ← hr]
      · exact ⟨['-'], intp, frac, ex, by rw [hshape]; simp, Or.inr rfl, hi, hf, hx⟩
  · next hnm =>
    obtain ⟨hr, intp, frac, ex, hshape, hi, hf, hx⟩ := parseNumMag_sound cs tok rest h
    exact ⟨hr, [], intp, frac, ex, by rw [hshape]; simp, Or.inl rfl, hi, hf, hx⟩

theorem numShape_head (tok : List Char) (h : NumShape tok) :
    ∃ c r, tok = c :: r ∧ (c = '-' ∨ c.isDigit = true) := by
  obtain ⟨sgn, intp, frac, ex, rfl, hs, hi, _, _⟩ := h
  rcases hs with rfl | rfl
  · rcases hi with rfl | ⟨c, ds, rfl, hcd, _, _⟩
    · exact ⟨'0', frac ++ ex, by simp, Or.inr (by decide)⟩
    · exact ⟨c, ds ++ frac ++ ex, by simp, Or.inr hcd⟩
  · exact ⟨'-', intp ++ frac ++ ex, by simp, Or.inl rfl⟩

theorem parseNumber_of_shape (tok : List Char) (h : NumShape tok) :
    parseNumber tok = some (tok, []) := by
  have := parseNumber_replay tok [] h trivial
  simpa using this

/-! #### String-body scanning lemmas -/

lemma parseStringBody_generic (c : Char) (r : List Char)
    (h : ¬ c = '"') (h2 : ¬ c = '\\') :
    parseStringBody (c :: r) =
      (if c.toNat < 32 then none
       else match parseStringBody r with
       | some (b, rest) => some (c :: b, rest)
       | none => none) := by
  conv_lhs => rw [parseStringBody.eq_def]
  split
  · next heq => exact absurd heq (by simp)
  · next x heq => injection heq with hx _; exact absurd hx h
  · next x e r2 heq => injection heq with hx _; exact absurd hx h2
  · next heq => injection heq with hx _; exact absurd hx h2
  · next x y heq => injection heq with hx hy; subst hx; subst hy; rfl

lemma strBodyOk_generic (c : Char) (r : List Char) (h2 : ¬ c = '\\') :
    strBodyOk (c :: r) =
      (decide (c ≠ '"') && decide (c ≠ '\\') && decide (32 ≤ c.toNat) && strBodyOk r) := by
  conv_lhs => rw [strBodyOk.eq_def]
  split
  · next heq => exact absurd heq (by simp)
  · next x e r2 heq => injection heq with hx _; exact absurd hx h2
  · next heq => injection heq with hx _; exact absurd hx h2
  · next x y heq => injection heq with hx hy; subst hx; subst hy; rfl

lemma string_replay_aux : ∀ (n : Nat) (b : List Char), b.length ≤ n →
    strBodyOk b = true →
    ∀ rest, parseStringBody (b ++ '"' :: rest) = some (b, rest) := by
  intro n
  induction n with
  | zero =>
    intro b hlen _ rest
    have hb : b = [] := List.eq_nil_of_length_eq_zero (Nat.le_zero.mp hlen)
    subst hb; rfl
  | succ n ih =>
    intro b hlen hok rest
    cases b with
    | nil => rfl
    | cons c r =>
      by_cases h2 : c = '\\'
      · subst h2
        cases r with
        | nil =>
          rw [show strBodyOk ['\\'] = false from rfl] at hok
          exact absurd hok (by decide)
        | cons e r0 =>
          simp only [strBodyOk] at hok
          by_cases hesc : isSimpleEsc e = true
          · rw [if_pos hesc] at hok
            have hrec := ih r0 (by simp only [List.length_cons] at hlen; omega) hok rest
            simp only [List.cons_append, parseStringBody, List.append_eq]
            rw [if_pos hesc, hrec]
          · rw [if_neg hesc] at hok
            by_cases hu : e = 'u'
            · subst hu
              rw [if_pos rfl] at hok
              rcases r0 with _ | ⟨a1, _ | ⟨a2, _ | ⟨a3, _ | ⟨a4, r2⟩⟩⟩⟩
              · rw [show strBodyOkU ([] : List Char) = false from rfl] at hok
                exact absurd hok (by decide)
              · rw [show strBodyOkU [a1] = false from rfl] at hok
                exact absurd hok (by decide)
              · rw [show strBodyOkU [a1, a2] = false from rfl] at hok
                exact absurd hok (by decide)
              · rw [show strBodyOkU [a1, a2, a3] = false from rfl] at hok
                exact absurd hok (by decide)
              · simp only [strBodyOkU, Bool.and_eq_true] at hok
                obtain ⟨⟨⟨⟨hA, hB⟩, hC⟩, hD⟩, hR⟩ := hok
                have hrec := ih r2
                  (by simp only [List.length_cons] at hlen; omega) hR rest
                simp only [List.cons_append, parseStringBody, List.append_eq]
                rw [if_neg (by decide), if_pos trivial]
                simp only [parseStringBodyU]
                rw [hA, hB, hC, hD]
                simp only [Bool.and_self, if_true]
                rw [hrec]
            · rw [if_neg hu] at hok
              exact absurd hok (by decide)
      · rw [strBodyOk_generic c r h2] at hok
        simp only [Bool.and_eq_true, decide_eq_true_eq] at hok
        obtain ⟨⟨⟨hq, _⟩, h32⟩, hr⟩ := hok
        have hrec := ih r (by simp only [List.length_cons] at hlen; omega) hr rest
        rw [List.cons_append, parseStringBody_generic c _ hq h2]
        rw [if_neg (by omega), hrec]

/-- Replaying a valid escaped body followed by the closing quote gives back
exactly the body and the remainder. -/
lemma parseStringBody_replay (b : List Char) (hok : strBodyOk b = true)
    (rest : List Char) :
    parseStringBody (b ++ '"' :: rest) = some (b, rest) :=
  string_replay_aux b.length b le_rfl hok rest

lemma string_sound_aux : ∀ (n : Nat) (cs : List Char), cs.length ≤ n →
    ∀ b rest, parseStringBody cs = some (b, rest) →
      cs = b ++ '"' :: rest ∧ strBodyOk b = true := by
  intro n
  induction n with
  | zero =>
    intro cs hlen b rest h
    have hcs : cs = [] := List.eq_nil_of_length_eq_zero (Nat.le_zero.mp hlen)
    subst hcs
    exact absurd h (by simp [parseStringBody])
  | succ n ih =>
    intro cs hlen b rest h
    cases cs with
    | nil => exact absurd h (by simp [parseStringBody])
    | cons c r =>
      by_cases hq : c = '"'
      · subst hq
        rw [show parseStringBody ('"' :: r) = some ([], r) from rfl] at h
        injection h with h1
        injection h1 with hb hrest
        subst hb; subst hrest
        exact ⟨rfl, rfl⟩
      · by_cases h2 : c = '\\'
        · subst h2
          cases r with
          | nil =>
            rw [show parseStringBody ['\\'] = none from rfl] at h
            exact absurd h (by simp)
          | cons e r0 =>
            simp only [parseStringBody] at h
            by_cases hesc : isSimpleEsc e = true
            · rw [if_pos hesc] at h
              cases hrec : parseStringBody r0 with
              | none => rw [hrec] at h; exact absurd h (by simp)
              | some p =>
                rw [hrec] at h
                simp only [Option.some.injEq, Prod.mk.injEq] at h
                obtain ⟨hb, hrest⟩ := h
                obtain ⟨hcs, hok⟩ := ih r0
                  (by simp only [List.length_cons] at hlen; omega) p.1 p.2
                  (by rw [hrec])
                subst hb; subst hrest
                constructor
                · rw [show ('\\' :: e :: p.1) ++ '"' :: p.2
                        = '\\' :: e :: (p.1 ++ '"' :: p.2) from rfl, ← hcs]
                · simp only [strBodyOk]
                  rw [if_pos hesc]
                  exact hok
            · by_cases hu : e = 'u'
              · subst hu
                rw [if_neg hesc, if_pos rfl] at h
                rcases r0 with _ | ⟨a1, _ | ⟨a2, _ | ⟨a3, _ | ⟨a4, r2⟩⟩⟩⟩
                · rw [show parseStringBodyU ([] : List Char) = none from rfl] at h
                  exact absurd h (by simp)
                · rw [show parseStringBodyU [a1] = none from rfl] at h
                  exact absurd h (by simp)
                · rw [show parseStringBodyU [a1, a2] = none from rfl] at h
                  exact absurd h (by simp)
                · rw [show parseStringBodyU [a1, a2, a3] = none from rfl] at h
                  exact absurd h (by simp)
                · simp only [parseStringBodyU] at h
                  by_cases hex : (isHexDigit a1 && isHexDigit a2 && isHexDigit a3
                      && isHexDigit a4) = true
                  · rw [if_pos hex] at h
                    cases hrec : parseStringBody r2 with
                    | none => rw [hrec] at h; exact absurd h (by simp)
                    | some p =>
                      rw [hrec] at h
                      simp only [Option.some.injEq, Prod.mk.injEq] at h
                      obtain ⟨hb, hrest⟩ := h
                      obtain ⟨hcs, hok⟩ := ih r2
                        (by simp only [List.length_cons] at hlen; omega) p.1 p.2
                        (by rw [hrec])
                      subst hb; subst hrest
                      simp only [Bool.and_eq_true] at hex
                      obtain ⟨⟨⟨hA, hB⟩, hC⟩, hD⟩ := hex
                      constructor
                      · rw [show ('\\' :: 'u' :: a1 :: a2 :: a3 :: a4 :: p.1)
                              ++ '"' :: p.2
                            = '\\' :: 'u' :: a1 :: a2 :: a3 :: a4
                              :: (p.1 ++ '"' :: p.2) from rfl, ← hcs]
                      · simp only [strBodyOk]
                        rw [if_neg (by decide), if_pos trivial]
                        simp only [strBodyOkU]
                        rw [hA, hB, hC, hD, hok]
                        rfl
                  · rw [if_neg hex] at h
                    exact absurd h (by simp)
              · rw [if_neg hesc, if_neg hu] at h
                exact absurd h (by simp)
        · rw [parseStringBody_generic c r hq h2] at h
          by_cases h32 : c.toNat < 32
          · rw [if_pos h32] at h
            exact absurd h (by simp)
          · rw [if_neg h32] at h
            cases hrec : parseStringBody r with
            | none => rw [hrec] at h; exact absurd h (by simp)
            | some p =>
              rw [hrec] at h
              simp only [Option.some.injEq, Prod.mk.injEq] at h
              obtain ⟨hb, hrest⟩ := h
              obtain ⟨hcs, hok⟩ := ih r
                (by simp only [List.length_cons] at hlen; omega) p.1 p.2
                (by rw [hrec])
              subst hb; subst hrest
              constructor
              · rw [show (c :: p.1) ++ '"' :: p.2
                      = c :: (p.1 ++ '"' :: p.2) from rfl, ← hcs]
              · rw [strBodyOk_generic c p.1 h2]
                simp [hq, h2, hok, Nat.not_lt.mp h32]

/-- A successful string-body scan splits the input at the closing quote and
the scanned body is a valid escaped body. -/
lemma parseStringBody_sound {cs b rest : List Char}
    (h : parseStringBody cs = some (b, rest)) :
    cs = b ++ '"' :: rest ∧ strBodyOk b = true :=
  string_sound_aux cs.length cs le_rfl b rest h

/-! #### Trailing-whitespace algebra -/

theorem allWs_of_skipWs_nil : ∀ r : List Char, skipWs r = [] → AllWs r := by
  intro r
  induction r with
  | nil => intro _; exact allWs_nil
  | cons c t ih =>
    intro h
    simp only [skipWs] at h
    by_cases hc : isWsChar c = true
    · rw [if_pos hc] at h
      intro d hd
      rcases List.mem_cons.mp hd with rfl | hd2
      · exact hc
      · exact ih h d hd2
    · rw [if_neg hc] at h
      exact absurd h (by simp)

theorem dropWhile_all_append (p : Char → Bool) :
    ∀ (a b : List Char), (∀ c ∈ a, p c = true) →
      List.dropWhile p (a ++ b) = List.dropWhile p b := by
  intro a
  induction a with
  | nil => intro b _; rfl
  | cons c t ih =>
    intro b h
    have hc : p c = true := h c (List.mem_cons_self c t)
    simp only [List.cons_append, List.dropWhile, hc]
    exact ih b (fun d hd => h d (List.mem_cons_of_mem _ hd))

theorem dropTrailWs_append_allWs (x ws : List Char) (h : AllWs ws) :
    dropTrailWs (x ++ ws) = dropTrailWs x := by
  unfold dropTrailWs
  rw [List.reverse_append]
  rw [dropWhile_all_append _ ws.reverse x.reverse
    (fun c hc => h c (List.mem_reverse.mp hc))]

theorem dropTrailWs_of_last_not_ws (l : List Char) (c : Char)
    (hl : l.getLast? = some c) (hc : isWsChar c = false) :
    dropTrailWs l = l := by
  unfold dropTrailWs
  have hrev : l.reverse.head? = some c := by rw [List.head?_reverse]; exact hl
  cases hr : l.reverse with
  | nil => rw [hr] at hrev; exact absurd hrev (by simp)
  | cons d t =>
    rw [hr] at hrev
    have hd : d = c := by injection hrev
    subst hd
    simp only [List.dropWhile, hc]
    rw [← hr, List.reverse_reverse]

theorem getLast?_append_right (x y : List Char) (c : Char)
    (h : y.getLast? = some c) : (x ++ y).getLast? = some c := by
  have hy : y ≠ [] := by intro hy; rw [hy] at h; exact absurd h (by simp)
  rw [List.getLast?_append_of_ne_nil x hy]
  exact h

theorem allDigits_last (ds : List Char) (hne : ds ≠ [])
    (hds : ∀ d ∈ ds, d.isDigit = true) :
    ∃ d, ds.getLast? = some d ∧ d.isDigit = true := by
  cases hl : ds.getLast? with
  | none => exact absurd (List.getLast?_eq_none_iff.mp hl) hne
  | some d => exact ⟨d, rfl, hds d (List.mem_of_getLast?_eq_some hl)⟩

theorem numShape_last (tok : List Char) (h : NumShape tok) :
    ∃ d, tok.getLast? = some d ∧ d.isDigit = true := by
  obtain ⟨sgn, intp, frac, ex, rfl, _, hi, hf, hx⟩ := h
  rcases hx with rfl | ⟨e, sg, ds, rfl, _, _, hdne, hds⟩
  · rcases hf with rfl | ⟨ds, rfl, hdne, hds⟩
    · simp only [List.append_nil]
      rcases hi with rfl | ⟨c, ds, rfl, hcd, _, hds⟩
      · exact ⟨'0', getLast?_append_right _ _ _ rfl, by decide⟩
      · cases ds with
        | nil => exact ⟨c, getLast?_append_right _ _ _ rfl, hcd⟩
        | cons d0 t =>
          obtain ⟨d, hdl, hdd⟩ := allDigits_last (d0 :: t) (by simp)
            (fun d hd => hds d hd)
          refine ⟨d, ?_, hdd⟩
          apply getLast?_append_right
          rw [show (c :: d0 :: t) = [c] ++ (d0 :: t) from rfl]
          exact getLast?_append_right _ _ _ hdl
    · obtain ⟨d, hdl, hdd⟩ := allDigits_last ds hdne hds
      refine ⟨d, ?_, hdd⟩
      simp only [List.append_nil, List.append_assoc]
      apply getLast?_append_right
      apply getLast?_append_right
      rw [show ('.' :: ds) = ['.'] ++ ds from rfl]
      exact getLast?_append_right _ _ _ hdl
  · obtain ⟨d, hdl, hdd⟩ := allDigits_last ds hdne hds
    refine ⟨d, ?_, hdd⟩
    simp only [List.append_assoc]
    apply getLast?_append_right
    apply getLast?_append_right
    apply getLast?_append_right
    rw [show (e :: sg ++ ds) = (e :: sg) ++ ds from rfl]
    exact getLast?_append_right _ _ _ hdl

theorem digit_char_facts (d : Char) (h : d.isDigit = true) :
    isWsChar d = false ∧ d ≠ ']' ∧ d ≠ '[' := by
  refine ⟨?_, ?_, ?_⟩
  · simp only [isWsChar, Bool.or_eq_false_iff, decide_eq_false_iff_not]
    refine ⟨⟨⟨?_, ?_⟩, ?_⟩, ?_⟩ <;> intro heq <;> rw [heq] at h <;> exact absurd h (by decide)
  · intro heq; rw [heq] at h; exact absurd h (by decide)
  · intro heq; rw [heq] at h; exact absurd h (by decide)

theorem ws_not_numCont (c : Char) (h : isWsChar c = true) : numCont c = false := by
  simp only [isWsChar, Bool.or_eq_true, decide_eq_true_eq] at h
  rcases h with ((rfl | rfl) | rfl) | rfl <;> decide

/-! #### The rendering relation: texts that denote a JSON value, an array
element chain, or an object member chain (mirroring the recursive-descent
parser's nonterminals, with whitespace allowed in every slot the parser
skips). -/

inductive Rd : Json ⊕ List Json ⊕ List (List Char × Json) → List Char → Prop where
  | vnull : Rd (Sum.inl .null) ['n', 'u', 'l', 'l']
  | vtrue : Rd (Sum.inl (.bool true)) ['t', 'r', 'u', 'e']
  | vfalse : Rd (Sum.inl (.bool false)) ['f', 'a', 'l', 's', 'e']
  | vnum (tok : List Char) : NumShape tok → Rd (Sum.inl (.num tok)) tok
  | vstr (b : List Char) : strBodyOk b = true →
      Rd (Sum.inl (.str b)) ('"' :: b ++ ['"'])
  | varrNil (ws : List Char) : AllWs ws → Rd (Sum.inl (.arr [])) ('[' :: ws ++ [']'])
  | varrCons (ws : List Char) (v : Json) (s : List Char) (vs : List Json)
      (t : List Char) : AllWs ws → Rd (Sum.inl v) s → Rd (Sum.inr (Sum.inl vs)) t →
      Rd (Sum.inl (.arr (v :: vs))) ('[' :: ws ++ s ++ t)
  | vobjNil (ws : List Char) : AllWs ws → Rd (Sum.inl (.obj [])) ('{' :: ws ++ ['}'])
  | vobjCons (ws0 k ws1 ws2 : List Char) (v : Json) (s : List Char)
      (ms : List (List Char × Json)) (t : List Char) :
      AllWs ws0 → strBodyOk k = true → AllWs ws1 → AllWs ws2 →
      Rd (Sum.inl v) s → Rd (Sum.inr (Sum.inr ms)) t →
      Rd (Sum.inl (.obj ((k, v) :: ms)))
        ('{' :: ws0 ++ '"' :: k ++ '"' :: ws1 ++ ':' :: ws2 ++ s ++ t)
  | chANil (ws : List Char) : AllWs ws → Rd (Sum.inr (Sum.inl [])) (ws ++ [']'])
  | chACons (ws0 ws1 : List Char) (v : Json) (s : List Char) (vs : List Json)
      (t : List Char) : AllWs ws0 → AllWs ws1 → Rd (Sum.inl v) s →
      Rd (Sum.inr (Sum.inl vs)) t →
      Rd (Sum.inr (Sum.inl (v :: vs))) (ws0 ++ ',' :: ws1 ++ s ++ t)
  | chONil (ws : List Char) : AllWs ws → Rd (Sum.inr (Sum.inr [])) (ws ++ ['}'])
  | chOCons (ws0 ws1 k ws2 ws3 : List Char) (v : Json) (s : List Char)
      (ms : List (List Char × Json)) (t : List Char) :
      AllWs ws0 → AllWs ws1 → strBodyOk k = true → AllWs ws2 → AllWs ws3 →
      Rd (Sum.inl v) s → Rd (Sum.inr (Sum.inr ms)) t →
      Rd (Sum.inr (Sum.inr ((k, v) :: ms)))
        (ws0 ++ ',' :: ws1 ++ '"' :: k ++ '"' :: ws2 ++ ':' :: ws3 ++ s ++ t)

/-- The first character of a value text: non-whitespace and not a closing
bracket. -/
theorem rd_val_head (v : Json) (s : List Char) (h : Rd (Sum.inl v) s) :
    ∃ c s2, s = c :: s2 ∧ isWsChar c = false ∧ c ≠ ']' := by
  cases h with
  | vnull => exact ⟨'n', _, rfl, by decide, by decide⟩
  | vtrue => exact ⟨'t', _, rfl, by decide, by decide⟩
  | vfalse => exact ⟨'f', _, rfl, by decide, by decide⟩
  | vnum tok hn =>
    obtain ⟨c, r, rfl, hc⟩ := numShape_head _ hn
    rcases hc with rfl | hd
    · exact ⟨'-', r, rfl, by decide, by decide⟩
    · obtain ⟨h1, h2, _⟩ := digit_char_facts c hd
      exact ⟨c, r, rfl, h1, h2⟩
  | vstr b hb => exact ⟨'"', _, rfl, by decide, by decide⟩
  | varrNil ws hw => exact ⟨'[', _, rfl, by decide, by decide⟩
  | varrCons ws v s vs t hw hv ht => exact ⟨'[', _, rfl, by decide, by decide⟩
  | vobjNil ws hw => exact ⟨'{', _, rfl, by decide, by decide⟩
  | vobjCons ws0 k ws1 ws2 v s ms t h0 hk h1 h2 hv ht =>
    exact ⟨'{', _, rfl, by decide, by decide⟩

/-- A chain text is nonempty and its first character cannot continue a
number token. -/
theorem rd_chain_head (x : List Json ⊕ List (List Char × Json)) (t : List Char)
    (h : Rd (Sum.inr x) t) : ∃ c t2, t = c :: t2 ∧ numCont c = false := by
  cases h with
  | chANil ws hw =>
    cases ws with
    | nil => exact ⟨']', _, rfl, by decide⟩
    | cons c r =>
      exact ⟨c, _, rfl, ws_not_numCont c (hw c (List.mem_cons_self c r))⟩
  | chACons ws0 ws1 v s vs t h0 h1 hv ht =>
    cases ws0 with
    | nil => exact ⟨',', _, rfl, by decide⟩
    | cons c r =>
      exact ⟨c, r ++ ',' :: ws1 ++ s ++ t, by simp,
        ws_not_numCont c (h0 c (List.mem_cons_self c r))⟩
  | chONil ws hw =>
    cases ws with
    | nil => exact ⟨'}', _, rfl, by decide⟩
    | cons c r =>
      exact ⟨c, _, rfl, ws_not_numCont c (hw c (List.mem_cons_self c r))⟩
  | chOCons ws0 ws1 k ws2 ws3 v s ms t h0 h1 hk h2 h3 hv ht =>
    cases ws0 with
    | nil => exact ⟨',', _, rfl, by decide⟩
    | cons c r =>
      exact ⟨c, r ++ ',' :: ws1 ++ '"' :: k ++ '"' :: ws2 ++ ':' :: ws3 ++ s ++ t,
        by simp, ws_not_numCont c (h0 c (List.mem_cons_self c r))⟩

theorem rd_chain_notNumCont (x : List Json ⊕ List (List Char × Json))
    (t rest : List Char) (h : Rd (Sum.inr x) t) : notNumCont (t ++ rest) := by
  obtain ⟨c, t2, rfl, hc⟩ := rd_chain_head x t h
  exact hc

/-! #### Replay: a rendered text parses back to its value -/

def RdParseStmt : Json ⊕ List Json ⊕ List (List Char × Json) → List Char → Prop
  | Sum.inl v, s => ∀ ws rest fuel, AllWs ws → notNumCont rest →
      2 * s.length ≤ fuel → parseVal fuel (ws ++ s ++ rest) = some (v, rest)
  | Sum.inr (Sum.inl vs), t => ∀ rest fuel, 2 * t.length ≤ fuel →
      parseArrRest fuel (t ++ rest) = some (vs, rest)
  | Sum.inr (Sum.inr ms), t => ∀ rest fuel, 2 * t.length ≤ fuel →
      parseObjRest fuel (t ++ rest) = some (ms, rest)

theorem allWs_notNumCont (l : List Char) (h : AllWs l) : notNumCont l := by
  cases l with
  | nil => trivial
  | cons c r => exact ws_not_numCont c (h c (List.mem_cons_self c r))

set_option maxHeartbeats 2000000 in
theorem rd_parse : ∀ idx t, Rd idx t → RdParseStmt idx t := by
  intro idx t h
  induction h with
  | vnull =>
    intro ws rest fuel hws _ hfuel
    simp only [List.length_cons, List.length_nil] at hfuel
    obtain ⟨f, rfl⟩ : ∃ f, fuel = f + 1 := ⟨fuel - 1, by omega⟩
    simp only [parseVal]
    rw [List.append_assoc, skipWs_ws_append ws hws]
    rfl
  | vtrue =>
    intro ws rest fuel hws _ hfuel
    simp only [List.length_cons, List.length_nil] at hfuel
    obtain ⟨f, rfl⟩ : ∃ f, fuel = f + 1 := ⟨fuel - 1, by omega⟩
    simp only [parseVal]
    rw [List.append_assoc, skipWs_ws_append ws hws]
    rfl
  | vfalse =>
    intro ws rest fuel hws _ hfuel
    simp only [List.length_cons, List.length_nil] at hfuel
    obtain ⟨f, rfl⟩ : ∃ f, fuel = f + 1 := ⟨fuel - 1, by omega⟩
    simp only [parseVal]
    rw [List.append_assoc, skipWs_ws_append ws hws]
    rfl
  | vnum tok hn =>
    intro ws rest fuel hws hrest hfuel
    obtain ⟨c, r, rfl, hc⟩ := numShape_head _ hn
    simp only [List.length_cons] at hfuel
    obtain ⟨f, rfl⟩ : ∃ f, fuel = f + 1 := ⟨fuel - 1, by omega⟩
    have hcw : isWsChar c = false := by
      rcases hc with rfl | hd
      · decide
      · exact (digit_char_facts c hd).1
    have hne : c ≠ '{' ∧ c ≠ '[' ∧ c ≠ '"' ∧ c ≠ 't' ∧ c ≠ 'f' ∧ c ≠ 'n' := by
      rcases hc with rfl | hd
      · exact ⟨by decide, by decide, by decide, by decide, by decide, by decide⟩
      · refine ⟨?_, ?_, ?_, ?_, ?_, ?_⟩ <;> intro heq <;> rw [heq] at hd <;>
          exact absurd hd (by decide)
    obtain ⟨h1, h2, h3, h4, h5, h6⟩ := hne
    simp only [parseVal]
    rw [List.append_assoc, skipWs_ws_append ws hws, List.cons_append,
      skipWs_cons_nonws c _ hcw]
    split
    · next r2 heq => injection heq with hx _; exact absurd hx h1
    · next r2 heq => injection heq with hx _; exact absurd hx h2
    · next r2 heq => injection heq with hx _; exact absurd hx h3
    · next r2 heq => injection heq with hx _; exact absurd hx h4
    · next r2 heq => injection heq with hx _; exact absurd hx h5
    · next r2 heq => injection heq with hx _; exact absurd hx h6
    · rw [show c :: (r ++ rest) = (c :: r) ++ rest from rfl,
        parseNumber_replay (c :: r) rest hn hrest]
  | vstr b hb =>
    intro ws rest fuel hws _ hfuel
    simp only [List.length_cons, List.length_append] at hfuel
    obtain ⟨f, rfl⟩ : ∃ f, fuel = f + 1 := ⟨fuel - 1, by omega⟩
    simp only [parseVal]
    rw [List.append_assoc, skipWs_ws_append ws hws,
      show ('"' :: b ++ ['"']) ++ rest = '"' :: (b ++ '"' :: rest) by simp,
      skipWs_cons_nonws '"' _ (by decide)]
    split
    · next r2 heq => injection heq with hx _; exact absurd hx (by decide)
    · next r2 heq => injection heq with hx _; exact absurd hx (by decide)
    · next r2 heq =>
      injection heq with _ hy
      rw [← hy, parseStringBody_replay b hb rest]
    · next r2 heq => injection heq with hx _; exact absurd hx (by decide)
    · next r2 heq => injection heq with hx _; exact absurd hx (by decide)
    · next r2 heq => injection heq with hx _; exact absurd hx (by decide)
    · next hA hB hC hD hE hF =>
      exact ((hC (b ++ '"' :: rest)) rfl).elim
  | varrNil wsI hw =>
    intro ws rest fuel hws _ hfuel
    simp only [List.length_cons, List.length_append, List.length_nil] at hfuel
    obtain ⟨f, rfl⟩ : ∃ f, fuel = f + 1 := ⟨fuel - 1, by omega⟩
    obtain ⟨f2, rfl⟩ : ∃ f2, f = f2 + 1 := ⟨f - 1, by omega⟩
    simp only [parseVal]
    rw [List.append_assoc, skipWs_ws_append ws hws,
      show ('[' :: wsI ++ [']']) ++ rest = '[' :: (wsI ++ ']' :: rest) by simp,
      skipWs_cons_nonws '[' _ (by decide)]
    show parseArrBody (f2 + 1) (wsI ++ ']' :: rest) = some (Json.arr [], rest)
    simp only [parseArrBody]
    rw [skipWs_ws_append wsI hw, skipWs_cons_nonws ']' _ (by decide)]
    rfl
  | varrCons wsI v sV vs tC hwI hv htc ihv ihtc =>
    simp only [RdParseStmt] at ihv ihtc
    intro ws rest fuel hws _ hfuel
    obtain ⟨c, s2, hs, hcw, hcb⟩ := rd_val_head v sV hv
    have hslen : 1 ≤ sV.length := by rw [hs]; simp
    have htlen : 1 ≤ tC.length := by
      obtain ⟨c2, t2, ht2, _⟩ := rd_chain_head _ tC htc
      rw [ht2]; simp
    simp only [List.length_cons, List.length_append] at hfuel
    obtain ⟨f, rfl⟩ : ∃ f, fuel = f + 1 := ⟨fuel - 1, by omega⟩
    obtain ⟨f2, rfl⟩ : ∃ f2, f = f2 + 1 := ⟨f - 1, by omega⟩
    simp only [parseVal]
    rw [List.append_assoc, skipWs_ws_append ws hws,
      show ('[' :: wsI ++ sV ++ tC) ++ rest = '[' :: (wsI ++ (sV ++ (tC ++ rest)))
        by simp,
      skipWs_cons_nonws '[' _ (by decide)]
    show parseArrBody (f2 + 1) (wsI ++ (sV ++ (tC ++ rest)))
      = some (Json.arr (v :: vs), rest)
    simp only [parseArrBody]
    rw [skipWs_ws_append wsI hwI, hs, List.cons_append,
      skipWs_cons_nonws c _ hcw]
    have hpv := ihv [] (tC ++ rest) f2 allWs_nil
      (rd_chain_notNumCont _ tC rest htc) (by omega)
    rw [List.nil_append, hs, List.cons_append] at hpv
    have hch := ihtc rest f2 (by omega)
    split
    · next r2 heq => injection heq with hx _; exact absurd hx hcb
    · rw [hpv]
      simp only [hch]
  | vobjNil wsI hw =>
    intro ws rest fuel hws _ hfuel
    simp only [List.length_cons, List.length_append, List.length_nil] at hfuel
    obtain ⟨f, rfl⟩ : ∃ f, fuel = f + 1 := ⟨fuel - 1, by omega⟩
    obtain ⟨f2, rfl⟩ : ∃ f2, f = f2 + 1 := ⟨f - 1, by omega⟩
    simp only [parseVal]
    rw [List.append_assoc, skipWs_ws_append ws hws,
      show ('{' :: wsI ++ ['}']) ++ rest = '{' :: (wsI ++ '}' :: rest) by simp,
      skipWs_cons_nonws '{' _ (by decide)]
    show parseObjBody (f2 + 1) (wsI ++ '}' :: rest) = some (Json.obj [], rest)
    simp only [parseObjBody]
    rw [skipWs_ws_append wsI hw, skipWs_cons_nonws '}' _ (by decide)]
    rfl
  | vobjCons ws0 k ws1 ws2 v sV ms tC h0 hk h1 h2 hv htc ihv ihtc =>
    simp only [RdParseStmt] at ihv ihtc
    intro ws rest fuel hws _ hfuel
    have hslen : 1 ≤ sV.length := by
      obtain ⟨c, s2, hs, _, _⟩ := rd_val_head v sV hv
      rw [hs]; simp
    have htlen : 1 ≤ tC.length := by
      obtain ⟨c2, t2, ht2, _⟩ := rd_chain_head _ tC htc
      rw [ht2]; simp
    simp only [List.length_cons, List.length_append] at hfuel
    obtain ⟨f, rfl⟩ : ∃ f, fuel = f + 1 := ⟨fuel - 1, by omega⟩
    obtain ⟨f2, rfl⟩ : ∃ f2, f = f2 + 1 := ⟨f - 1, by omega⟩
    simp only [parseVal]
    rw [List.append_assoc, skipWs_ws_append ws hws,
      show ('{' :: ws0 ++ '"' :: k ++ '"' :: ws1 ++ ':' :: ws2 ++ sV ++ tC) ++ rest
        = '{' :: (ws0 ++ '"' :: (k ++ '"' :: (ws1 ++ ':' :: (ws2 ++ (sV ++ (tC ++ rest))))))
        by simp,
      skipWs_cons_nonws '{' _ (by decide)]
    show parseObjBody (f2 + 1)
        (ws0 ++ '"' :: (k ++ '"' :: (ws1 ++ ':' :: (ws2 ++ (sV ++ (tC ++ rest))))))
      = some (Json.obj ((k, v) :: ms), rest)
    simp only [parseObjBody]
    rw [skipWs_ws_append ws0 h0, skipWs_cons_nonws '"' _ (by decide)]
    have hkey := parseStringBody_replay k hk (ws1 ++ ':' :: (ws2 ++ (sV ++ (tC ++ rest))))
    have hpv := ihv ws2 (tC ++ rest) f2 h2
      (rd_chain_notNumCont _ tC rest htc) (by omega)
    rw [List.append_assoc] at hpv
    have hch := ihtc rest f2 (by omega)
    split
    · next r2 heq => injection heq with hx _; exact absurd hx (by decide)
    · next r2 heq =>
      injection heq with _ hy
      rw [← hy, hkey]
      simp only [skipWs_ws_append ws1 h1, skipWs_cons_nonws ':' _ (by decide)]
      simp only [hpv, hch]
    · next hA hB =>
      exact ((hB (k ++ '"' :: (ws1 ++ ':' :: (ws2 ++ (sV ++ (tC ++ rest)))))) rfl).elim
  | chANil wsI hw =>
    intro rest fuel hfuel
    simp only [List.length_append, List.length_cons, List.length_nil] at hfuel
    obtain ⟨f, rfl⟩ : ∃ f, fuel = f + 1 := ⟨fuel - 1, by omega⟩
    simp only [parseArrRest]
    rw [show (wsI ++ [']']) ++ rest = wsI ++ ']' :: rest by simp,
      skipWs_ws_append wsI hw, skipWs_cons_nonws ']' _ (by decide)]
    rfl
  | chACons ws0 ws1 v sV vs tC h0 h1 hv htc ihv ihtc =>
    simp only [RdParseStmt] at ihv ihtc
    intro rest fuel hfuel
    have hslen : 1 ≤ sV.length := by
      obtain ⟨c, s2, hs, _, _⟩ := rd_val_head v sV hv
      rw [hs]; simp
    have htlen : 1 ≤ tC.length := by
      obtain ⟨c2, t2, ht2, _⟩ := rd_chain_head _ tC htc
      rw [ht2]; simp
    simp only [List.length_append, List.length_cons] at hfuel
    obtain ⟨f, rfl⟩ : ∃ f, fuel = f + 1 := ⟨fuel - 1, by omega⟩
    simp only [parseArrRest]
    rw [show (ws0 ++ ',' :: ws1 ++ sV ++ tC) ++ rest
        = ws0 ++ ',' :: (ws1 ++ (sV ++ (tC ++ rest))) by simp,
      skipWs_ws_append ws0 h0, skipWs_cons_nonws ',' _ (by decide)]
    have hpv := ihv ws1 (tC ++ rest) f h1
      (rd_chain_notNumCont _ tC rest htc) (by omega)
    rw [List.append_assoc] at hpv
    have hch := ihtc rest f (by omega)
    split
    · next r2 heq => injection heq with hx _; exact absurd hx (by decide)
    · next r2 heq =>
      injection heq with _ hy
      rw [← hy, hpv]
      simp only [hch]
    · next hA hB =>
      exact ((hB (ws1 ++ (sV ++ (tC ++ rest)))) rfl).elim
  | chONil wsI hw =>
    intro rest fuel hfuel
    simp only [List.length_append, List.length_cons, List.length_nil] at hfuel
    obtain ⟨f, rfl⟩ : ∃ f, fuel = f + 1 := ⟨fuel - 1, by omega⟩
    simp only [parseObjRest]
    rw [show (wsI ++ ['}']) ++ rest = wsI ++ '}' :: rest by simp,
      skipWs_ws_append wsI hw, skipWs_cons_nonws '}' _ (by decide)]
    rfl
  | chOCons ws0 ws1 k ws2 ws3 v sV ms tC h0 h1 hk h2 h3 hv htc ihv ihtc =>
    simp only [RdParseStmt] at ihv ihtc
    intro rest fuel hfuel
    have hslen : 1 ≤ sV.length := by
      obtain ⟨c, s2, hs, _, _⟩ := rd_val_head v sV hv
      rw [hs]; simp
    have htlen : 1 ≤ tC.length := by
      obtain ⟨c2, t2, ht2, _⟩ := rd_chain_head _ tC htc
      rw [ht2]; simp
    simp only [List.length_append, List.length_cons] at hfuel
    obtain ⟨f, rfl⟩ : ∃ f, fuel = f + 1 := ⟨fuel - 1, by omega⟩
    simp only [parseObjRest]
    rw [show (ws0 ++ ',' :: ws1 ++ '"' :: k ++ '"' :: ws2 ++ ':' :: ws3 ++ sV ++ tC) ++ rest
        = ws0 ++ ',' :: (ws1 ++ '"' :: (k ++ '"' :: (ws2 ++ ':' :: (ws3 ++ (sV ++ (tC ++ rest))))))
        by simp,
      skipWs_ws_append ws0 h0, skipWs_cons_nonws ',' _ (by decide)]
    have hkey := parseStringBody_replay k hk (ws2 ++ ':' :: (ws3 ++ (sV ++ (tC ++ rest))))
    have hpv := ihv ws3 (tC ++ rest) f h3
      (rd_chain_notNumCont _ tC rest htc) (by omega)
    rw [List.append_assoc] at hpv
    have hch := ihtc rest f (by omega)
    split
    · next r2 heq => injection heq with hx _; exact absurd hx (by decide)
    · next r2 heq =>
      injection heq with _ hy
      rw [← hy, skipWs_ws_append ws1 h1, skipWs_cons_nonws '"' _ (by decide)]
      split
      · next r1 heq2 =>
        injection heq2 with _ hy2
        rw [← hy2, hkey]
        simp only [skipWs_ws_append ws2 h2, skipWs_cons_nonws ':' _ (by decide)]
        simp only [hpv, hch]
      · next hA =>
        exact ((hA (k ++ '"' :: (ws2 ++ ':' :: (ws3 ++ (sV ++ (tC ++ rest)))))) rfl).elim
    · next hA hB =>
      exact ((hB (ws1 ++ '"' :: (k ++ '"' :: (ws2 ++ ':' :: (ws3 ++ (sV ++ (tC ++ rest)))))))
        rfl).elim

theorem rd_parseVal (v : Json) (s : List Char) (h : Rd (Sum.inl v) s)
    (ws rest : List Char) (fuel : Nat) (hws : AllWs ws) (hrest : notNumCont rest)
    (hfuel : 2 * s.length ≤ fuel) :
    parseVal fuel (ws ++ s ++ rest) = some (v, rest) :=
  rd_parse _ _ h ws rest fuel hws hrest hfuel

/-- A rendered value text, with only trailing whitespace, passes the
top-level parse used by the validation step. -/
theorem rd_parseTop (v : Json) (s trail : List Char) (h : Rd (Sum.inl v) s)
    (htr : AllWs trail) : parseTop (s ++ trail) = some v := by
  unfold parseTop
  have hp := rd_parseVal v s h [] trail (2 * (s ++ trail).length + 2) allWs_nil
    (allWs_notNumCont trail htr) (by simp [List.length_append]; omega)
  rw [List.nil_append] at hp
  rw [hp]
  show (if (skipWs trail).isEmpty = true then some v else none) = some v
  rw [skipWs_eq_nil trail htr]
  rfl

/-! #### Soundness: a successful parse decomposes the input into a
rendered text and the remainder -/

theorem allWs_append (a b : List Char) (ha : AllWs a) (hb : AllWs b) :
    AllWs (a ++ b) := by
  intro c hc
  rcases List.mem_append.mp hc with h | h
  · exact ha c h
  · exact hb c h

set_option maxHeartbeats 2000000 in
theorem parse_sound : ∀ fuel : Nat,
    (∀ cs v rest, parseVal fuel cs = some (v, rest) →
      ∃ ws s, AllWs ws ∧ cs = ws ++ s ++ rest ∧ Rd (Sum.inl v) s) ∧
    (∀ cs v rest, parseArrBody fuel cs = some (v, rest) →
      ∃ vs inner, v = Json.arr vs ∧ cs = inner ++ rest ∧
        Rd (Sum.inl (Json.arr vs)) ('[' :: inner)) ∧
    (∀ cs vs rest, parseArrRest fuel cs = some (vs, rest) →
      ∃ t, cs = t ++ rest ∧ Rd (Sum.inr (Sum.inl vs)) t) ∧
    (∀ cs v rest, parseObjBody fuel cs = some (v, rest) →
      ∃ ms inner, v = Json.obj ms ∧ cs = inner ++ rest ∧
        Rd (Sum.inl (Json.obj ms)) ('{' :: inner)) ∧
    (∀ cs ms rest, parseObjRest fuel cs = some (ms, rest) →
      ∃ t, cs = t ++ rest ∧ Rd (Sum.inr (Sum.inr ms)) t) := by
  intro fuel
  induction fuel with
  | zero =>
    refine ⟨?_, ?_, ?_, ?_, ?_⟩ <;> intro cs a rest h <;>
      simp only [parseVal, parseArrBody, parseArrRest, parseObjBody,
        parseObjRest] at h <;> exact absurd h (by simp)
  | succ f ih =>
    obtain ⟨ihV, ihAB, ihAR, ihOB, ihOR⟩ := ih
    have hwsl : ∀ cs : List Char, AllWs (wsLead cs) := fun cs => (wsLead_decomp cs).1
    have hcs0 : ∀ cs : List Char, cs = wsLead cs ++ skipWs cs :=
      fun cs => (wsLead_decomp cs).2
    refine ⟨?_, ?_, ?_, ?_, ?_⟩
    · -- parseVal
      intro cs v rest h
      simp only [parseVal] at h
      split at h
      · next r heq =>
        obtain ⟨ms, inner, rfl, hri, hrd⟩ := ihOB r v rest h
        refine ⟨wsLead cs, '{' :: inner, hwsl cs, ?_, hrd⟩
        conv_lhs => rw [hcs0 cs]
        rw [heq, hri]
        simp
      · next r heq =>
        obtain ⟨vs, inner, rfl, hri, hrd⟩ := ihAB r v rest h
        refine ⟨wsLead cs, '[' :: inner, hwsl cs, ?_, hrd⟩
        conv_lhs => rw [hcs0 cs]
        rw [heq, hri]
        simp
      · next r heq =>
        split at h
        · next b rest0 heq2 =>
          injection h with h1
          injection h1 with hv hrest
          subst hv; subst hrest
          obtain ⟨hr, hok⟩ := parseStringBody_sound heq2
          refine ⟨wsLead cs, '"' :: b ++ ['"'], hwsl cs, ?_, Rd.vstr b hok⟩
          conv_lhs => rw [hcs0 cs]
          rw [heq, hr]
          simp
        · next heq2 => exact absurd h (by simp)
      · next rest0 heq =>
        injection h with h1
        injection h1 with hv hrest
        subst hv; subst hrest
        refine ⟨wsLead cs, ['t', 'r', 'u', 'e'], hwsl cs, ?_, Rd.vtrue⟩
        conv_lhs => rw [hcs0 cs]
        rw [heq]
        simp
      · next rest0 heq =>
        injection h with h1
        injection h1 with hv hrest
        subst hv; subst hrest
        refine ⟨wsLead cs, ['f', 'a', 'l', 's', 'e'], hwsl cs, ?_, Rd.vfalse⟩
        conv_lhs => rw [hcs0 cs]
        rw [heq]
        simp
      · next rest0 heq =>
        injection h with h1
        injection h1 with hv hrest
        subst hv; subst hrest
        refine ⟨wsLead cs, ['n', 'u', 'l', 'l'], hwsl cs, ?_, Rd.vnull⟩
        conv_lhs => rw [hcs0 cs]
        rw [heq]
        simp
      · next hn1 hn2 hn3 hn4 hn5 hn6 =>
        split at h
        · next tok rest0 heq2 =>
          injection h with h1
          injection h1 with hv hrest
          subst hv; subst hrest
          obtain ⟨hr, hshape⟩ := parseNumber_sound (skipWs cs) tok rest0 heq2
          refine ⟨wsLead cs, tok, hwsl cs, ?_, Rd.vnum tok hshape⟩
          conv_lhs => rw [hcs0 cs]
          rw [hr]
          simp
        · next heq2 => exact absurd h (by simp)
    · -- parseArrBody
      intro cs v rest h
      simp only [parseArrBody] at h
      split at h
      · next rest0 heq =>
        injection h with h1
        injection h1 with hv hrest
        subst hv; subst hrest
        refine ⟨[], wsLead cs ++ [']'], rfl, ?_,
          by rw [show ('[' :: (wsLead cs ++ [']'])) = '[' :: wsLead cs ++ [']'] from rfl]
             exact Rd.varrNil (wsLead cs) (hwsl cs)⟩
        conv_lhs => rw [hcs0 cs]
        rw [heq]
        simp
      · next hne =>
        split at h
        · next v0 r2 heq2 =>
          split at h
          · next vs0 r3 heq3 =>
            injection h with h1
            injection h1 with hv hrest
            subst hv; subst hrest
            obtain ⟨ws2, s2, hws2, hdec2, hrd2⟩ := ihV (skipWs cs) v0 r2 heq2
            obtain ⟨t3, hdec3, hrd3⟩ := ihAR r2 vs0 r3 heq3
            refine ⟨v0 :: vs0, wsLead cs ++ ws2 ++ s2 ++ t3, rfl, ?_, ?_⟩
            · conv_lhs => rw [hcs0 cs]
              rw [hdec2, hdec3]
              simp
            · rw [show ('[' :: (wsLead cs ++ ws2 ++ s2 ++ t3))
                  = '[' :: (wsLead cs ++ ws2) ++ s2 ++ t3 by simp]
              exact Rd.varrCons (wsLead cs ++ ws2) v0 s2 vs0 t3
                (allWs_append _ _ (hwsl cs) hws2) hrd2 hrd3
          · next heq3 => exact absurd h (by simp)
        · next heq2 => exact absurd h (by simp)
    · -- parseArrRest
      intro cs vs rest h
      simp only [parseArrRest] at h
      split at h
      · next rest0 heq =>
        injection h with h1
        injection h1 with hv hrest
        subst hv; subst hrest
        refine ⟨wsLead cs ++ [']'], ?_, Rd.chANil (wsLead cs) (hwsl cs)⟩
        conv_lhs => rw [hcs0 cs]
        rw [heq]
        simp
      · next r heq =>
        split at h
        · next v0 r2 heq2 =>
          split at h
          · next vs0 r3 heq3 =>
            injection h with h1
            injection h1 with hv hrest
            subst hv; subst hrest
            obtain ⟨ws2, s2, hws2, hdec2, hrd2⟩ := ihV r v0 r2 heq2
            obtain ⟨t3, hdec3, hrd3⟩ := ihAR r2 vs0 r3 heq3
            refine ⟨wsLead cs ++ ',' :: ws2 ++ s2 ++ t3, ?_,
              Rd.chACons (wsLead cs) ws2 v0 s2 vs0 t3 (hwsl cs) hws2 hrd2 hrd3⟩
            conv_lhs => rw [hcs0 cs]
            rw [heq, hdec2, hdec3]
            simp
          · next heq3 => exact absurd h (by simp)
        · next heq2 => exact absurd h (by simp)
      · exact absurd h (by simp)
    · -- parseObjBody
      intro cs v rest h
      simp only [parseObjBody] at h
      split at h
      · next rest0 heq =>
        injection h with h1
        injection h1 with hv hrest
        subst hv; subst hrest
        refine ⟨[], wsLead cs ++ ['}'], rfl, ?_,
          by rw [show ('{' :: (wsLead cs ++ ['}'])) = '{' :: wsLead cs ++ ['}'] from rfl]
             exact Rd.vobjNil (wsLead cs) (hwsl cs)⟩
        conv_lhs => rw [hcs0 cs]
        rw [heq]
        simp
      · next r heq =>
        split at h
        · next k r2 heq2 =>
          split at h
          · next r3 heq3 =>
            split at h
            · next v0 r4 heq4 =>
              split at h
              · next ms0 r5 heq5 =>
                injection h with h1
                injection h1 with hv hrest
                subst hv; subst hrest
                obtain ⟨hr, hok⟩ := parseStringBody_sound heq2
                obtain ⟨ws2, s2, hws2, hdec4, hrd4⟩ := ihV r3 v0 r4 heq4
                obtain ⟨t3, hdec5, hrd5⟩ := ihOR r4 ms0 r5 heq5
                refine ⟨(k, v0) :: ms0,
                  wsLead cs ++ '"' :: k ++ '"' :: wsLead r2 ++ ':' :: ws2 ++ s2 ++ t3,
                  rfl, ?_, ?_⟩
                · conv_lhs => rw [hcs0 cs]
                  rw [heq, hr]
                  conv_lhs => rw [hcs0 r2]
                  rw [heq3, hdec4, hdec5]
                  simp
                · rw [show ('{' :: (wsLead cs ++ '"' :: k ++ '"' :: wsLead r2 ++ ':' :: ws2 ++ s2 ++ t3))
                      = '{' :: wsLead cs ++ '"' :: k ++ '"' :: wsLead r2 ++ ':' :: ws2 ++ s2 ++ t3 by simp]
                  exact Rd.vobjCons (wsLead cs) k (wsLead r2) ws2 v0 s2 ms0 t3
                    (hwsl cs) hok (hwsl r2) hws2 hrd4 hrd5
              · next heq5 => exact absurd h (by simp)
            · next heq4 => exact absurd h (by simp)
          · exact absurd h (by simp)
        · next heq2 => exact absurd h (by simp)
      · exact absurd h (by simp)
    · -- parseObjRest
      intro cs ms rest h
      simp only [parseObjRest] at h
      split at h
      · next rest0 heq =>
        injection h with h1
        injection h1 with hv hrest
        subst hv; subst hrest
        refine ⟨wsLead cs ++ ['}'], ?_, Rd.chONil (wsLead cs) (hwsl cs)⟩
        conv_lhs => rw [hcs0 cs]
        rw [heq]
        simp
      · next r heq =>
        split at h
        · next r1 heq1 =>
          split at h
          · next k r2 heq2 =>
            split at h
            · next r3 heq3 =>
              split at h
              · next v0 r4 heq4 =>
                split at h
                · next ms0 r5 heq5 =>
                  injection h with h1
                  injection h1 with hv hrest
                  subst hv; subst hrest
                  obtain ⟨hr, hok⟩ := parseStringBody_sound heq2
                  obtain ⟨ws2, s2, hws2, hdec4, hrd4⟩ := ihV r3 v0 r4 heq4
                  obtain ⟨t3, hdec5, hrd5⟩ := ihOR r4 ms0 r5 heq5
                  refine ⟨wsLead cs ++ ',' :: wsLead r ++ '"' :: k ++ '"' :: wsLead r2 ++ ':' :: ws2 ++ s2 ++ t3,
                    ?_,
                    Rd.chOCons (wsLead cs) (wsLead r) k (wsLead r2) ws2 v0 s2 ms0 t3
                      (hwsl cs) (hwsl r) hok (hwsl r2) hws2 hrd4 hrd5⟩
                  conv_lhs => rw [hcs0 cs]
                  rw [heq]
                  conv_lhs => rw [hcs0 r]
                  rw [heq1, hr]
                  conv_lhs => rw [hcs0 r2]
                  rw [heq3, hdec4, hdec5]
                  simp
                · next heq5 => exact absurd h (by simp)
              · next heq4 => exact absurd h (by simp)
            · exact absurd h (by simp)
          · next heq2 => exact absurd h (by simp)
        · exact absurd h (by simp)
      · exact absurd h (by simp)

/-! #### Stripping the closing bracket of a rendered array and splicing a
new element chain in its place -/

theorem getLast?_append_cases (X y : List Char) (c : Char)
    (h : (X ++ y).getLast? = some c) :
    y.getLast? = some c ∨ (y = [] ∧ X.getLast? = some c) := by
  cases hy : y with
  | nil =>
    right
    rw [hy, List.append_nil] at h
    exact ⟨rfl, h⟩
  | cons b bt =>
    left
    rw [← hy]
    rw [hy] at h
    rw [List.getLast?_append_of_ne_nil X (by simp)] at h
    rw [hy]
    exact h

def RdStripStmt : Json ⊕ List Json ⊕ List (List Char × Json) → List Char → Prop
  | Sum.inl _, s => ∃ c, s.getLast? = some c ∧ isWsChar c = false ∧ c ≠ '['
  | Sum.inr (Sum.inl vs), t => ∃ body wsE, t = body ++ wsE ++ [']'] ∧ AllWs wsE ∧
      (vs = [] → body = []) ∧
      (∀ c, body.getLast? = some c → isWsChar c = false ∧ c ≠ '[') ∧
      ∀ chunk tnew, Rd (Sum.inr (Sum.inl chunk)) tnew →
        Rd (Sum.inr (Sum.inl (vs ++ chunk))) (body ++ tnew)
  | Sum.inr (Sum.inr _), t => ∃ body wsE, t = body ++ wsE ++ ['}'] ∧ AllWs wsE

theorem rd_strip : ∀ idx t, Rd idx t → RdStripStmt idx t := by
  intro idx t h
  induction h with
  | vnull => exact ⟨'l', rfl, by decide, by decide⟩
  | vtrue => exact ⟨'e', rfl, by decide, by decide⟩
  | vfalse => exact ⟨'e', rfl, by decide, by decide⟩
  | vnum tok hn =>
    obtain ⟨d, hdl, hdd⟩ := numShape_last tok hn
    obtain ⟨h1, _, h3⟩ := digit_char_facts d hdd
    exact ⟨d, hdl, h1, h3⟩
  | vstr b hb =>
    exact ⟨'"', getLast?_append_right ('"' :: b) ['"'] '"' rfl, by decide, by decide⟩
  | varrNil ws hw =>
    exact ⟨']', getLast?_append_right ('[' :: ws) [']'] ']' rfl, by decide, by decide⟩
  | varrCons ws v sv vs tc hws hv htc ihv ihtc =>
    simp only [RdStripStmt] at ihtc
    obtain ⟨body, wsE, htcd, hwsE, _, _, _⟩ := ihtc
    refine ⟨']', ?_, by decide, by decide⟩
    rw [htcd,
      show '[' :: ws ++ sv ++ (body ++ wsE ++ [']'])
        = ('[' :: ws ++ sv ++ body ++ wsE) ++ [']'] by simp]
    exact getLast?_append_right _ _ _ rfl
  | vobjNil ws hw =>
    exact ⟨'}', getLast?_append_right ('{' :: ws) ['}'] '}' rfl, by decide, by decide⟩
  | vobjCons ws0 k ws1 ws2 v sv ms tc h0 hk h1 h2 hv htc ihv ihtc =>
    simp only [RdStripStmt] at ihtc
    obtain ⟨body, wsE, htcd, hwsE⟩ := ihtc
    refine ⟨'}', ?_, by decide, by decide⟩
    rw [htcd,
      show '{' :: ws0 ++ '"' :: k ++ '"' :: ws1 ++ ':' :: ws2 ++ sv ++ (body ++ wsE ++ ['}'])
        = ('{' :: ws0 ++ '"' :: k ++ '"' :: ws1 ++ ':' :: ws2 ++ sv ++ body ++ wsE) ++ ['}']
        by simp]
    exact getLast?_append_right _ _ _ rfl
  | chANil ws hw =>
    refine ⟨[], ws, by simp, hw, fun _ => rfl, ?_, ?_⟩
    · intro c hc
      exact absurd hc (by simp)
    · intro chunk tnew hch
      simpa using hch
  | chACons ws0 ws1 v sv vs tc h0 h1 hv htc ihv ihtc =>
    simp only [RdStripStmt] at ihv ihtc
    obtain ⟨cV, hsvl, hsvw, hsvb⟩ := ihv
    obtain ⟨body, wsE, htcd, hwsE, _, hlast, hsplice⟩ := ihtc
    refine ⟨ws0 ++ ',' :: ws1 ++ sv ++ body, wsE, ?_, hwsE, ?_, ?_, ?_⟩
    · rw [htcd]; simp
    · intro hC; exact absurd hC (by simp)
    · intro c hc
      rcases getLast?_append_cases _ body c hc with hy | ⟨hbnil, hXl⟩
      · exact hlast c hy
      · rcases getLast?_append_cases _ sv c hXl with hy2 | ⟨hsvnil, _⟩
        · rw [hsvl] at hy2
          injection hy2 with he
          subst he
          exact ⟨hsvw, hsvb⟩
        · obtain ⟨cH, s2, hs, _, _⟩ := rd_val_head v sv hv
          rw [hs] at hsvnil
          exact absurd hsvnil (by simp)
    · intro chunk tnew hch
      have hsp := hsplice chunk tnew hch
      rw [show (v :: vs) ++ chunk = v :: (vs ++ chunk) from rfl,
          show (ws0 ++ ',' :: ws1 ++ sv ++ body) ++ tnew
            = ws0 ++ ',' :: ws1 ++ sv ++ (body ++ tnew) by simp]
      exact Rd.chACons ws0 ws1 v sv (vs ++ chunk) (body ++ tnew) h0 h1 hv hsp
  | chONil ws hw =>
    exact ⟨[], ws, by simp, hw⟩
  | chOCons ws0 ws1 k ws2 ws3 v sv ms tc h0 h1 hk h2 h3 hv htc ihv ihtc =>
    simp only [RdStripStmt] at ihtc
    obtain ⟨body, wsE, htcd, hwsE⟩ := ihtc
    refine ⟨ws0 ++ ',' :: ws1 ++ '"' :: k ++ '"' :: ws2 ++ ':' :: ws3 ++ sv ++ body,
      wsE, ?_, hwsE⟩
    rw [htcd]; simp

/-! #### Rendering (JSON.stringify): compact form for single swaps and
2-space-indented form for whole arrays. Number values carry their textual
token; strings carry their escaped body. -/

/-- The fixed texts of the three JSON keyword literals. -/
def nullTxt : List Char := ['n', 'u', 'l', 'l']

def trueTxt : List Char := ['t', 'r', 'u', 'e']

def falseTxt : List Char := ['f', 'a', 'l', 's', 'e']

mutual
/-- `JSON.stringify(v)` (no indent), as used per record in
`appendSwapsToFile`. -/
def compactRender : Json → List Char
  | .null => nullTxt
  | .bool true => trueTxt
  | .bool false => falseTxt
  | .num tok => tok
  | .str b => '"' :: b ++ ['"']
  | .arr [] => ['[', ']']
  | .arr (v :: vs) => '[' :: (compactRender v ++ compactItems vs)
  | .obj [] => ['{', '}']
  | .obj ((k, v) :: ms) =>
    '{' :: '"' :: (k ++ '"' :: ':' :: (compactRender v ++ compactMems ms))

def compactItems : List Json → List Char
  | [] => [']']
  | v :: vs => ',' :: (compactRender v ++ compactItems vs)

def compactMems : List (List Char × Json) → List Char
  | [] => ['}']
  | (k, v) :: ms => ',' :: '"' :: (k ++ '"' :: ':' :: (compactRender v ++ compactMems ms))
end

def padN (n : Nat) : List Char := List.replicate n ' '

mutual
/-- `JSON.stringify(v, null, 2)` at indentation level `ind`, as used for
fresh writes of the whole array. -/
def prettyR (ind : Nat) : Json → List Char
  | .null => nullTxt
  | .bool true => trueTxt
  | .bool false => falseTxt
  | .num tok => tok
  | .str b => '"' :: b ++ ['"']
  | .arr [] => ['[', ']']
  | .arr (v :: vs) =>
    '[' :: '\n' :: ((padN (ind + 2) ++ prettyR (ind + 2) v) ++ prettyItems ind vs)
  | .obj [] => ['{', '}']
  | .obj ((k, v) :: ms) =>
    '{' :: '\n' :: (padN (ind + 2) ++ '"' :: (k ++ '"' :: ':' :: ' ' ::
      (prettyR (ind + 2) v ++ prettyMems ind ms)))

def prettyItems (ind : Nat) : List Json → List Char
  | [] => '\n' :: (padN ind ++ [']'])
  | v :: vs =>
    ',' :: '\n' :: ((padN (ind + 2) ++ prettyR (ind + 2) v) ++ prettyItems ind vs)

def prettyMems (ind : Nat) : List (List Char × Json) → List Char
  | [] => '\n' :: (padN ind ++ ['}'])
  | (k, v) :: ms =>
    ',' :: '\n' :: (padN (ind + 2) ++ '"' :: (k ++ '"' :: ':' :: ' ' ::
      (prettyR (ind + 2) v ++ prettyMems ind ms)))
end

mutual
/-- Well-formedness of a model value: number tokens follow the JSON number
grammar and string bodies are valid escaped bodies. -/
def wfJ : Json → Bool
  | .null => true
  | .bool _ => true
  | .num tok => decide (parseNumber tok = some (tok, []))
  | .str b => strBodyOk b
  | .arr vs => wfJList vs
  | .obj ms => wfJMems ms

def wfJList : List Json → Bool
  | [] => true
  | v :: vs => wfJ v && wfJList vs

def wfJMems : List (List Char × Json) → Bool
  | [] => true
  | (k, v) :: ms => strBodyOk k && wfJ v && wfJMems ms
end

theorem numShape_of_wf (tok : List Char)
    (h : decide (parseNumber tok = some (tok, [])) = true) : NumShape tok := by
  have h2 := of_decide_eq_true h
  obtain ⟨_, hs⟩ := parseNumber_sound tok tok [] h2
  exact hs

theorem allWs_pad (n : Nat) : AllWs (padN n) := by
  intro c hc
  have := List.eq_of_mem_replicate hc
  rw [this]
  decide

theorem allWs_nl_pad (n : Nat) : AllWs ('\n' :: padN n) := by
  intro c hc
  rcases List.mem_cons.mp hc with rfl | hc2
  · decide
  · exact allWs_pad n c hc2

mutual
def rdCompact : (v : Json) → wfJ v = true → Rd (Sum.inl v) (compactRender v)
  | .null, _ => Rd.vnull
  | .bool true, _ => Rd.vtrue
  | .bool false, _ => Rd.vfalse
  | .num tok, h => Rd.vnum tok (numShape_of_wf tok h)
  | .str b, h => Rd.vstr b h
  | .arr [], _ => Rd.varrNil [] allWs_nil
  | .arr (v :: vs), h =>
    Rd.varrCons [] v (compactRender v) vs (compactItems vs) allWs_nil
      (rdCompact v (by
        have h2 : (wfJ v && wfJList vs) = true := h
        exact (Bool.and_eq_true_iff.mp h2).1))
      (rdCompactItems vs (by
        have h2 : (wfJ v && wfJList vs) = true := h
        exact (Bool.and_eq_true_iff.mp h2).2))
  | .obj [], _ => Rd.vobjNil [] allWs_nil
  | .obj ((k, v) :: ms), h => by
    have hd := Rd.vobjCons [] k [] [] v (compactRender v) ms (compactMems ms) allWs_nil
      (by
        have h2 : (strBodyOk k && wfJ v && wfJMems ms) = true := h
        exact (Bool.and_eq_true_iff.mp (Bool.and_eq_true_iff.mp h2).1).1)
      allWs_nil allWs_nil
      (rdCompact v (by
        have h2 : (strBodyOk k && wfJ v && wfJMems ms) = true := h
        exact (Bool.and_eq_true_iff.mp (Bool.and_eq_true_iff.mp h2).1).2))
      (rdCompactMems ms (by
        have h2 : (strBodyOk k && wfJ v && wfJMems ms) = true := h
        exact (Bool.and_eq_true_iff.mp h2).2))
    simp only [compactRender, List.cons_append, List.nil_append, List.append_assoc] at hd ⊢
    exact hd

def rdCompactItems : (vs : List Json) → wfJList vs = true →
    Rd (Sum.inr (Sum.inl vs)) (compactItems vs)
  | [], _ => Rd.chANil [] allWs_nil
  | v :: vs, h =>
    Rd.chACons [] [] v (compactRender v) vs (compactItems vs) allWs_nil allWs_nil
      (rdCompact v (by
        have h2 : (wfJ v && wfJList vs) = true := h
        exact (Bool.and_eq_true_iff.mp h2).1))
      (rdCompactItems vs (by
        have h2 : (wfJ v && wfJList vs) = true := h
        exact (Bool.and_eq_true_iff.mp h2).2))

def rdCompactMems : (ms : List (List Char × Json)) → wfJMems ms = true →
    Rd (Sum.inr (Sum.inr ms)) (compactMems ms)
  | [], _ => Rd.chONil [] allWs_nil
  | (k, v) :: ms, h => by
    have hd := Rd.chOCons [] [] k [] [] v (compactRender v) ms (compactMems ms) allWs_nil
      allWs_nil
      (by
        have h2 : (strBodyOk k && wfJ v && wfJMems ms) = true := h
        exact (Bool.and_eq_true_iff.mp (Bool.and_eq_true_iff.mp h2).1).1)
      allWs_nil allWs_nil
      (rdCompact v (by
        have h2 : (strBodyOk k && wfJ v && wfJMems ms) = true := h
        exact (Bool.and_eq_true_iff.mp (Bool.and_eq_true_iff.mp h2).1).2))
      (rdCompactMems ms (by
        have h2 : (strBodyOk k && wfJ v && wfJMems ms) = true := h
        exact (Bool.and_eq_true_iff.mp h2).2))
    simp only [compactMems, List.cons_append, List.nil_append, List.append_assoc] at hd ⊢
    exact hd
end

mutual
def rdPretty : (ind : Nat) → (v : Json) → wfJ v = true →
    Rd (Sum.inl v) (prettyR ind v)
  | _, .null, _ => Rd.vnull
  | _, .bool true, _ => Rd.vtrue
  | _, .bool false, _ => Rd.vfalse
  | _, .num tok, h => Rd.vnum tok (numShape_of_wf tok h)
  | _, .str b, h => Rd.vstr b h
  | _, .arr [], _ => Rd.varrNil [] allWs_nil
  | ind, .arr (v :: vs), h =>
    Rd.varrCons ('\n' :: padN (ind + 2)) v (prettyR (ind + 2) v) vs
      (prettyItems ind vs) (allWs_nl_pad (ind + 2))
      (rdPretty (ind + 2) v (by
        have h2 : (wfJ v && wfJList vs) = true := h
        exact (Bool.and_eq_true_iff.mp h2).1))
      (rdPrettyItems ind vs (by
        have h2 : (wfJ v && wfJList vs) = true := h
        exact (Bool.and_eq_true_iff.mp h2).2))
  | _, .obj [], _ => Rd.vobjNil [] allWs_nil
  | ind, .obj ((k, v) :: ms), h => by
    have hd := Rd.vobjCons ('\n' :: padN (ind + 2)) k [] [' '] v (prettyR (ind + 2) v) ms
      (prettyMems ind ms) (allWs_nl_pad (ind + 2))
      (by
        have h2 : (strBodyOk k && wfJ v && wfJMems ms) = true := h
        exact (Bool.and_eq_true_iff.mp (Bool.and_eq_true_iff.mp h2).1).1)
      allWs_nil (by intro c hc; simp at hc; rw [hc]; decide)
      (rdPretty (ind + 2) v (by
        have h2 : (strBodyOk k && wfJ v && wfJMems ms) = true := h
        exact (Bool.and_eq_true_iff.mp (Bool.and_eq_true_iff.mp h2).1).2))
      (rdPrettyMems ind ms (by
        have h2 : (strBodyOk k && wfJ v && wfJMems ms) = true := h
        exact (Bool.and_eq_true_iff.mp h2).2))
    simp only [prettyR, List.cons_append, List.nil_append, List.append_assoc] at hd ⊢
    exact hd

def rdPrettyItems : (ind : Nat) → (vs : List Json) → wfJList vs = true →
    Rd (Sum.inr (Sum.inl vs)) (prettyItems ind vs)
  | ind, [], _ => Rd.chANil ('\n' :: padN ind) (allWs_nl_pad ind)
  | ind, v :: vs, h =>
    Rd.chACons [] ('\n' :: padN (ind + 2)) v (prettyR (ind + 2) v) vs
      (prettyItems ind vs) allWs_nil (allWs_nl_pad (ind + 2))
      (rdPretty (ind + 2) v (by
        have h2 : (wfJ v && wfJList vs) = true := h
        exact (Bool.and_eq_true_iff.mp h2).1))
      (rdPrettyItems ind vs (by
        have h2 : (wfJ v && wfJList vs) = true := h
        exact (Bool.and_eq_true_iff.mp h2).2))

def rdPrettyMems : (ind : Nat) → (ms : List (List Char × Json)) →
    wfJMems ms = true → Rd (Sum.inr (Sum.inr ms)) (prettyMems ind ms)
  | ind, [], _ => Rd.chONil ('\n' :: padN ind) (allWs_nl_pad ind)
  | ind, (k, v) :: ms, h => by
    have hd := Rd.chOCons [] ('\n' :: padN (ind + 2)) k [] [' '] v (prettyR (ind + 2) v) ms
      (prettyMems ind ms) allWs_nil (allWs_nl_pad (ind + 2))
      (by
        have h2 : (strBodyOk k && wfJ v && wfJMems ms) = true := h
        exact (Bool.and_eq_true_iff.mp (Bool.and_eq_true_iff.mp h2).1).1)
      allWs_nil (by intro c hc; simp at hc; rw [hc]; decide)
      (rdPretty (ind + 2) v (by
        have h2 : (strBodyOk k && wfJ v && wfJMems ms) = true := h
        exact (Bool.and_eq_true_iff.mp (Bool.and_eq_true_iff.mp h2).1).2))
      (rdPrettyMems ind ms (by
        have h2 : (strBodyOk k && wfJ v && wfJMems ms) = true := h
        exact (Bool.and_eq_true_iff.mp h2).2))
    simp only [prettyMems, List.cons_append, List.nil_append, List.append_assoc] at hd ⊢
    exact hd
end

/-! #### The append protocol of appendSwapsToFile (src/dex/index.js 285-345) -/

/-- Observable file state: the output file and the `.temp` file, each
`none` when absent. -/
structure FileSys where
  output : Option (List Char)
  temp : Option (List Char)

/-- `existingData.replace(/\s*\]$/, '')`: on trimmed data, remove one
trailing `]` together with the whitespace run before it. -/
def stripClose (l : List Char) : List Char :=
  if l.getLast? = some ']' then dropTrailWs l.dropLast else l

/-- `newSwaps.map(swap => '  ' + JSON.stringify(swap)).join(',\n')` split
into head and tail parts. -/
def chunkItems : List Json → List Char
  | [] => []
  | r :: rs => ',' :: '\n' :: ' ' :: ' ' :: (compactRender r ++ chunkItems rs)

def renderChunk : List Json → List Char
  | [] => []
  | r :: rs => ' ' :: ' ' :: (compactRender r ++ chunkItems rs)

/-- Model of `appendSwapsToFile(newSwaps)`: returns the reported success
flag and the resulting file state. -/
def appendSwapsToFile (fs : FileSys) (newSwaps : List Json) : Bool × FileSys :=
  if newSwaps.isEmpty then (true, fs)
  else
    match fs.output with
    | none => (true, { output := some (prettyR 0 (.arr newSwaps)), temp := fs.temp })
    | some content =>
      let existingData := trimChars content
      if existingData = [] ∨ existingData = ['[', ']'] then
        (true, { output := some (prettyR 0 (.arr newSwaps)), temp := fs.temp })
      else
        let stripped := stripClose existingData
        let newDataString :=
          if (trimChars stripped).getLast? = some '[' then renderChunk newSwaps
          else ',' :: '\n' :: renderChunk newSwaps
        let tempContent := stripped ++ newDataString ++ ['\n', ']']
        match parseTop tempContent with
        | some _ => (true, { output := some tempContent, temp := none })
        | none => (false, { output := some content, temp := none })

/-- Successive appends; stops at the first reported failure (as `main`
breaks out of its loop). -/
def foldAppend (fs : FileSys) : List (List Json) → Bool × FileSys
  | [] => (true, fs)
  | c :: cs =>
    match appendSwapsToFile fs c with
    | (true, fs2) => foldAppend fs2 cs
    | (false, fs2) => (false, fs2)

theorem rdChunkChain : ∀ rs : List Json, wfJList rs = true →
    Rd (Sum.inr (Sum.inl rs)) (chunkItems rs ++ ['\n', ']']) := by
  intro rs
  induction rs with
  | nil =>
    intro _
    exact Rd.chANil ['\n'] (by intro c hc; simp at hc; rw [hc]; decide)
  | cons r rs ih =>
    intro h
    have h2 : (wfJ r && wfJList rs) = true := h
    have hd := Rd.chACons [] ['\n', ' ', ' '] r (compactRender r) rs
      (chunkItems rs ++ ['\n', ']'])
      allWs_nil (by intro c hc; simp at hc; rcases hc with rfl | rfl <;> decide)
      (rdCompact r (Bool.and_eq_true_iff.mp h2).1)
      (ih (Bool.and_eq_true_iff.mp h2).2)
    simp only [chunkItems, List.cons_append, List.nil_append, List.append_assoc] at hd ⊢
    exact hd

theorem renderChunk_comma (r : Json) (rs : List Json) :
    (',' :: '\n' :: renderChunk (r :: rs)) ++ ['\n', ']']
      = chunkItems (r :: rs) ++ ['\n', ']'] := by
  simp [renderChunk, chunkItems]

theorem dropLeadWs_cons_nonws (c : Char) (x : List Char)
    (h : isWsChar c = false) : dropLeadWs (c :: x) = c :: x := by
  simp [dropLeadWs, List.dropWhile, h]

theorem dropLeadWs_ws_append (ws x : List Char) (h : AllWs ws) :
    dropLeadWs (ws ++ x) = dropLeadWs x :=
  dropWhile_all_append _ ws x h

/-- Trimming a text that is leading whitespace, a value with non-whitespace
edges, and trailing whitespace gives back the value text. -/
theorem trimChars_decomp (wsL sv rest : List Char) (h1 : AllWs wsL)
    (h2 : AllWs rest) (c0 : Char) (s2 : List Char) (hh : sv = c0 :: s2)
    (hh2 : isWsChar c0 = false) (cL : Char) (hl : sv.getLast? = some cL)
    (hl2 : isWsChar cL = false) :
    trimChars (wsL ++ sv ++ rest) = sv := by
  unfold trimChars
  rw [List.append_assoc, dropLeadWs_ws_append wsL _ h1, hh, List.cons_append,
    dropLeadWs_cons_nonws c0 _ hh2, ← List.cons_append, ← hh,
    dropTrailWs_append_allWs _ _ h2]
  exact dropTrailWs_of_last_not_ws sv cL hl hl2

theorem isEmpty_false_of_ne_nil {α : Type} (l : List α) (h : l ≠ []) :
    l.isEmpty = false := by
  cases l with
  | nil => exact absurd rfl h
  | cons a t => rfl

theorem skipWs_nil_of_isEmpty (l : List Char) (h : (skipWs l).isEmpty = true) :
    AllWs l := by
  apply allWs_of_skipWs_nil
  cases hs : skipWs l with
  | nil => rfl
  | cons c t => rw [hs] at h; exact absurd h (by simp)

/-- One successful append: starting from an existing output file that
parses as the array `es`, appending a nonempty well-formed chunk reports
success and the new file parses as `es ++ chunk`. -/
theorem append_step (t : List Char) (tmp : Option (List Char)) (es chunk : List Json)
    (hparse : parseTop t = some (Json.arr es)) (hne : chunk ≠ [])
    (hwf : wfJList chunk = true) :
    ∃ t2 tmp2, appendSwapsToFile ⟨some t, tmp⟩ chunk = (true, ⟨some t2, tmp2⟩) ∧
      parseTop t2 = some (Json.arr (es ++ chunk)) := by
  unfold parseTop at hparse
  split at hparse
  case h_2 => exact absurd hparse (by simp)
  case h_1 v rest heqPV =>
    split at hparse
    case isFalse => exact absurd hparse (by simp)
    case isTrue hEmpty =>
      injection hparse with hv
      subst hv
      have hrest : AllWs rest := skipWs_nil_of_isEmpty rest hEmpty
      obtain ⟨wsL, sV, hwsL, htdec, hrd⟩ :=
        (parse_sound (2 * t.length + 2)).1 t (Json.arr es) rest heqPV
      obtain ⟨c0, s2, hh, hh2, _⟩ := rd_val_head _ _ hrd
      have hstrV := rd_strip _ _ hrd
      simp only [RdStripStmt] at hstrV
      obtain ⟨cL, hl, hl2, _⟩ := hstrV
      have hed : trimChars t = sV := by
        rw [htdec]
        exact trimChars_decomp wsL sV rest hwsL hrest c0 s2 hh hh2 cL hl hl2
      obtain ⟨r0, rs0, rfl⟩ : ∃ r0 rs0, chunk = r0 :: rs0 := by
        cases chunk with
        | nil => exact absurd rfl hne
        | cons a b => exact ⟨a, b, rfl⟩
      have h2wf : (wfJ r0 && wfJList rs0) = true := hwf
      cases hrd with
      | varrNil wsA hwA =>
        by_cases hwA0 : wsA = []
        · subst hwA0
          refine ⟨prettyR 0 (.arr (r0 :: rs0)), tmp, ?_, ?_⟩
          · simp only [appendSwapsToFile, List.isEmpty_cons, Bool.false_eq_true,
              if_false]
            rw [if_pos (Or.inr (by rw [hed]; rfl))]
          · rw [List.nil_append]
            have hpt := rd_parseTop (Json.arr (r0 :: rs0)) _ []
              (rdPretty 0 _ hwf) allWs_nil
            rw [List.append_nil] at hpt
            exact hpt
        · have hedne1 : ¬ trimChars t = [] := by rw [hed]; simp
          have hedne2 : ¬ trimChars t = ['[', ']'] := by
            rw [hed]
            intro hC
            apply hwA0
            have hlen := congrArg List.length hC
            simp at hlen
            exact hlen
          have hstrip : stripClose (trimChars t) = ['['] := by
            rw [hed]
            unfold stripClose
            rw [if_pos (getLast?_append_right ('[' :: wsA) [']'] ']' rfl)]
            rw [List.dropLast_concat,
              show ('[' :: wsA) = ['['] ++ wsA from rfl,
              dropTrailWs_append_allWs _ _ hwA]
            rfl
          have hrdNew : Rd (Sum.inl (Json.arr (r0 :: rs0)))
              (['['] ++ renderChunk (r0 :: rs0) ++ ['\n', ']']) := by
            have hd := Rd.varrCons [' ', ' '] r0 (compactRender r0) rs0
              (chunkItems rs0 ++ ['\n', ']'])
              (by intro c hc; simp at hc; rw [hc]; decide)
              (rdCompact r0 (Bool.and_eq_true_iff.mp h2wf).1)
              (rdChunkChain rs0 (Bool.and_eq_true_iff.mp h2wf).2)
            simp only [renderChunk, List.cons_append, List.nil_append,
              List.append_assoc] at hd ⊢
            exact hd
          have hpt := rd_parseTop _ _ [] hrdNew allWs_nil
          rw [List.append_nil] at hpt
          refine ⟨['['] ++ renderChunk (r0 :: rs0) ++ ['\n', ']'], none, ?_, ?_⟩
          · simp only [appendSwapsToFile, List.isEmpty_cons, Bool.false_eq_true,
              if_false]
            rw [if_neg (by push_neg; exact ⟨hedne1, hedne2⟩)]
            rw [hstrip]
            rw [if_pos (show (trimChars ['[']).getLast? = some '[' from rfl)]
            rw [hpt]
          · rw [List.nil_append]
            exact hpt
      | varrCons wsA v0 sv0 vs0 tc0 hwA hv0 htc0 =>
        have hstr0 := rd_strip _ _ htc0
        simp only [RdStripStmt] at hstr0
        obtain ⟨body, wsE, htcd, hwsE, _, hlastB, hsplice⟩ := hstr0
        have hsvStr := rd_strip _ _ hv0
        simp only [RdStripStmt] at hsvStr
        obtain ⟨cV, hvL, hvW, hvB⟩ := hsvStr
        have hXlast : ∃ cX, ('[' :: wsA ++ sv0 ++ body).getLast? = some cX ∧
            isWsChar cX = false ∧ cX ≠ '[' := by
          cases hb : body with
          | nil =>
            rw [List.append_nil]
            exact ⟨cV, getLast?_append_right _ _ _ hvL, hvW, hvB⟩
          | cons b bt =>
            cases hgl : (b :: bt).getLast? with
            | none => exact absurd (List.getLast?_eq_none_iff.mp hgl) (by simp)
            | some cB =>
              obtain ⟨hw1, hw2⟩ := hlastB cB (by rw [hb]; exact hgl)
              exact ⟨cB, getLast?_append_right _ _ _ hgl, hw1, hw2⟩
        obtain ⟨cX, hXl, hXw, hXb⟩ := hXlast
        have hsv0len : 1 ≤ sv0.length := by
          obtain ⟨cH, sh2, hsh, _, _⟩ := rd_val_head _ _ hv0
          rw [hsh]; simp
        have hedne1 : ¬ trimChars t = [] := by rw [hed]; simp
        have hedne2 : ¬ trimChars t = ['[', ']'] := by
          rw [hed, htcd]
          intro hC
          have hlen := congrArg List.length hC
          simp [List.length_append] at hlen
          omega
        have hstrip : stripClose (trimChars t) = '[' :: wsA ++ sv0 ++ body := by
          rw [hed, htcd]
          unfold stripClose
          rw [show '[' :: wsA ++ sv0 ++ (body ++ wsE ++ [']'])
              = ('[' :: wsA ++ sv0 ++ body ++ wsE) ++ [']'] by simp]
          rw [if_pos (getLast?_append_right _ [']'] ']' rfl)]
          rw [List.dropLast_concat, dropTrailWs_append_allWs _ _ hwsE]
          exact dropTrailWs_of_last_not_ws _ cX hXl hXw
        have htrX : trimChars ('[' :: wsA ++ sv0 ++ body) = '[' :: wsA ++ sv0 ++ body := by
          unfold trimChars
          rw [show '[' :: wsA ++ sv0 ++ body = '[' :: (wsA ++ sv0 ++ body) by simp,
            dropLeadWs_cons_nonws '[' _ (by decide),
            show ('[' :: (wsA ++ sv0 ++ body)) = '[' :: wsA ++ sv0 ++ body by simp]
          exact dropTrailWs_of_last_not_ws _ cX hXl hXw
        have hchain := hsplice (r0 :: rs0) (chunkItems (r0 :: rs0) ++ ['\n', ']'])
          (rdChunkChain _ hwf)
        have hd : Rd (Sum.inl (Json.arr ((v0 :: vs0) ++ (r0 :: rs0))))
            ('[' :: wsA ++ sv0 ++ (body ++ (chunkItems (r0 :: rs0) ++ ['\n', ']']))) :=
          Rd.varrCons wsA v0 sv0 (vs0 ++ (r0 :: rs0))
            (body ++ (chunkItems (r0 :: rs0) ++ ['\n', ']'])) hwA hv0 hchain
        have htext : ('[' :: wsA ++ sv0 ++ body)
              ++ (',' :: '\n' :: renderChunk (r0 :: rs0)) ++ ['\n', ']']
            = '[' :: wsA ++ sv0 ++ (body ++ (chunkItems (r0 :: rs0) ++ ['\n', ']'])) := by
          simp [renderChunk, chunkItems, List.append_assoc]
        have hpt : parseTop (('[' :: wsA ++ sv0 ++ body)
            ++ (',' :: '\n' :: renderChunk (r0 :: rs0)) ++ ['\n', ']'])
            = some (Json.arr ((v0 :: vs0) ++ (r0 :: rs0))) := by
          rw [htext]
          have := rd_parseTop _ _ [] hd allWs_nil
          rw [List.append_nil] at this
          exact this
        refine ⟨('[' :: wsA ++ sv0 ++ body)
          ++ (',' :: '\n' :: renderChunk (r0 :: rs0)) ++ ['\n', ']'], none, ?_, hpt⟩
        simp only [appendSwapsToFile, List.isEmpty_cons, Bool.false_eq_true,
          if_false]
        rw [if_neg (by push_neg; exact ⟨hedne1, hedne2⟩)]
        rw [hstrip]
        rw [if_neg (by
          rw [htrX, hXl]
          intro hC
          injection hC with hC2
          exact hXb hC2)]
        rw [hpt]

/-- C4: for every existing output file and every (well-formed) chunk of new
records, if the append reports failure (the validation parse of the
temporary content failed) then the output file is byte-for-byte unchanged
and the temporary file is discarded; and whenever it reports success the
output file is either still its pre-chunk content or a new content that
parses as valid JSON — never a half-written state. -/
theorem append_validation_atomic (t : List Char) (tmp : Option (List Char))
    (chunk : List Json) (hwf : wfJList chunk = true) :
    ((appendSwapsToFile ⟨some t, tmp⟩ chunk).1 = false →
      (appendSwapsToFile ⟨some t, tmp⟩ chunk).2.output = some t ∧
      (appendSwapsToFile ⟨some t, tmp⟩ chunk).2.temp = none) ∧
    ((appendSwapsToFile ⟨some t, tmp⟩ chunk).1 = true →
      (appendSwapsToFile ⟨some t, tmp⟩ chunk).2.output = some t ∨
      ∃ t2 v, (appendSwapsToFile ⟨some t, tmp⟩ chunk).2.output = some t2 ∧
        parseTop t2 = some v) := by
  simp only [appendSwapsToFile]
  by_cases hch : chunk.isEmpty
  · rw [if_pos hch]
    exact ⟨fun h => absurd h (by simp), fun _ => Or.inl rfl⟩
  · rw [if_neg hch]
    by_cases hed : trimChars t = [] ∨ trimChars t = ['[', ']']
    · rw [if_pos hed]
      refine ⟨fun h => absurd h (by simp),
        fun _ => Or.inr ⟨prettyR 0 (.arr chunk), .arr chunk, rfl, ?_⟩⟩
      have hpt := rd_parseTop (Json.arr chunk) _ [] (rdPretty 0 _ hwf) allWs_nil
      rw [List.append_nil] at hpt
      exact hpt
    · rw [if_neg hed]
      split
      · next v heqP =>
        exact ⟨fun h => absurd h (by simp), fun _ => Or.inr ⟨_, v, rfl, heqP⟩⟩
      · next heqP =>
        exact ⟨fun _ => ⟨rfl, rfl⟩, fun h => absurd h (by simp)⟩

theorem append_validation_atomic_witness :
    wfJList [Json.obj []] = true ∧
    (((appendSwapsToFile ⟨some ['g'], none⟩ [Json.obj []]).1 = false →
      (appendSwapsToFile ⟨some ['g'], none⟩ [Json.obj []]).2.output = some ['g'] ∧
      (appendSwapsToFile ⟨some ['g'], none⟩ [Json.obj []]).2.temp = none) ∧
    ((appendSwapsToFile ⟨some ['g'], none⟩ [Json.obj []]).1 = true →
      (appendSwapsToFile ⟨some ['g'], none⟩ [Json.obj []]).2.output = some ['g'] ∨
      ∃ t2 v, (appendSwapsToFile ⟨some ['g'], none⟩ [Json.obj []]).2.output = some t2 ∧
        parseTop t2 = some v)) :=
  ⟨by decide, append_validation_atomic ['g'] none [Json.obj []] (by decide)⟩

/-- C5: starting from an existing output file that parses as the record
array `es`, appending any succession of nonempty well-formed chunks via the
append protocol reports success throughout, and the final file parses as
exactly `es` followed by all chunk records in order. -/
theorem append_preserves_records (t : List Char) (tmp : Option (List Char))
    (es : List Json) (chunks : List (List Json))
    (hparse : parseTop t = some (Json.arr es))
    (hchunks : ∀ c ∈ chunks, c ≠ [] ∧ wfJList c = true) :
    (foldAppend ⟨some t, tmp⟩ chunks).1 = true ∧
    ∃ t2, (foldAppend ⟨some t, tmp⟩ chunks).2.output = some t2 ∧
      parseTop t2 = some (Json.arr (es ++ chunks.flatten)) := by
  induction chunks generalizing t tmp es with
  | nil => exact ⟨rfl, t, rfl, by simpa using hparse⟩
  | cons c cs ih =>
    obtain ⟨hne, hwfc⟩ := hchunks c (List.mem_cons_self c cs)
    obtain ⟨t2, tmp2, happ, hp2⟩ := append_step t tmp es c hparse hne hwfc
    have hih := ih t2 tmp2 (es ++ c) hp2
      (fun d hd => hchunks d (List.mem_cons_of_mem _ hd))
    simp only [foldAppend]
    rw [happ]
    show (foldAppend ⟨some t2, tmp2⟩ cs).1 = true ∧
      ∃ t3, (foldAppend ⟨some t2, tmp2⟩ cs).2.output = some t3 ∧
        parseTop t3 = some (Json.arr (es ++ (c :: cs).flatten))
    rw [List.flatten_cons, ← List.append_assoc]
    exact hih

theorem append_preserves_records_witness :
    parseTop ['[', ']'] = some (Json.arr []) ∧
    ((foldAppend ⟨some ['[', ']'], none⟩ [[Json.obj []]]).1 = true ∧
    ∃ t2, (foldAppend ⟨some ['[', ']'], none⟩ [[Json.obj []]]).2.output = some t2 ∧
      parseTop t2 = some (Json.arr ([] ++ [[Json.obj []]].flatten))) :=
  ⟨rfl, append_preserves_records ['[', ']'] none [] [[Json.obj []]] rfl
    (by intro c hc; simp at hc; subst hc; exact ⟨by simp, by decide⟩)⟩

end CexData
